import Mathlib

/-! Priority queue of the osmosis transaction processor.

A shallow embedding of `main.go`: the `Item` record, the `PriorityQueue`
slice with its `heap.Interface` methods, the two `container/heap` entry
points the program calls (`heap.Push`, `heap.Pop`, with their `up` and
`down` loops), the lock-guarded `ConcurrentPriorityQueue` wrapper, the HTTP
handler `handlePost` and the decoder adapter `TxHandler.HandleTx`.

Items live in Go heap memory and the slice holds pointers to them, so the
state is a pair of a memory (address to `Item`) and a slice of addresses.
Go's `int` is modelled by `Int`; every slice access is bounds-checked and a
failed check is the run-time panic `Fault.indexOutOfRange`.
-/

set_option autoImplicit false

namespace TxQueue

/-! ## Data model -/

/-- The Go struct `Item`: payload, priority and position bookkeeping. -/
structure Item where
  value : String
  priority : Int
  index : Int
  deriving DecidableEq, Repr

/-- A non-nil `*Item`: the address of an `Item` in Go heap memory. -/
abbrev Ptr := Nat

/-- The Go type `PriorityQueue []*Item`.  Only non-nil pointers are ever
stored inside the length of the slice (`PriorityQueue.Push` dereferences the
pointer before appending it). -/
abbrev PriorityQueue := List Ptr

/-- Run-time failures of the Go program that the model keeps apart from a
normal return: the two panics the queue code can raise, and the exhaustion of
the iteration budget given to a loop of the model. -/
inductive Fault where
  | indexOutOfRange
  | nilDereference
  | outOfFuel
  deriving DecidableEq, Repr

/-- The state the queue code acts on: the memory holding every `Item` and
the slice `cpq.pq`.  The mutex of `ConcurrentPriorityQueue` serialises the
calls, so each call is one transition of this state. -/
structure Store where
  mem : Ptr → Item
  pq : PriorityQueue

/-- The assignment `p.index = i` through the pointer `p`. -/
def setIndex (mem : Ptr → Item) (p : Ptr) (i : Int) : Ptr → Item :=
  fun q => if q = p then { mem p with index := i } else mem q

/-- The slice index expression `pq[i]` with Go's bounds check. -/
def idx (pq : PriorityQueue) (i : Int) : Except Fault Ptr :=
  if 0 ≤ i then
    match pq[i.toNat]? with
    | some p => .ok p
    | none => .error .indexOutOfRange
  else .error .indexOutOfRange

/-! ## `heap.Interface` methods of `PriorityQueue` -/

/-- `func (pq PriorityQueue) Len() int { return len(pq) }`. -/
def PriorityQueue.Len (s : Store) : Int := (s.pq.length : Int)

/-- `func (pq PriorityQueue) Less(i, j int) bool`:
`pq[i].priority > pq[j].priority`. -/
def PriorityQueue.Less (s : Store) (i j : Int) : Except Fault Bool := do
  let a ← idx s.pq i
  let b ← idx s.pq j
  pure (decide ((s.mem a).priority > (s.mem b).priority))

/-- `func (pq PriorityQueue) Swap(i, j int)`: the tuple assignment
`pq[i], pq[j] = pq[j], pq[i]` reads both elements first and then stores them
left to right; then `pq[i].index = i` and `pq[j].index = j`. -/
def PriorityQueue.Swap (s : Store) (i j : Int) : Except Fault Store := do
  let b ← idx s.pq j
  let a ← idx s.pq i
  let pq1 := (s.pq.set i.toNat b).set j.toNat a
  let pi ← idx pq1 i
  let m1 := setIndex s.mem pi i
  let pj ← idx pq1 j
  let m2 := setIndex m1 pj j
  pure { mem := m2, pq := pq1 }

/-- `func (pq *PriorityQueue) Push(x interface{})`: `n := len(*pq)`,
`item.index = n`, `*pq = append(*pq, item)`.  The argument is a `*Item` that
may be nil (`none`), in which case `item.index = n` panics. -/
def PriorityQueue.Push (s : Store) (x : Option Ptr) : Except Fault Store :=
  let n := PriorityQueue.Len s
  match x with
  | none => .error .nilDereference
  | some item => .ok { mem := setIndex s.mem item n, pq := s.pq ++ [item] }

/-- `func (pq *PriorityQueue) Pop() interface{}`: `item := old[n-1]`,
`old[n-1] = nil`, `item.index = -1`, `*pq = old[0 : n-1]`, `return item`.
The nil stored at `old[n-1]` lies outside the resliced `old[0 : n-1]` and is
overwritten by the next append before it can be read. -/
def PriorityQueue.Pop (s : Store) : Except Fault (Ptr × Store) := do
  let old := s.pq
  let n : Int := (old.length : Int)
  let item ← idx old (n - 1)
  let m1 := setIndex s.mem item (-1)
  pure (item, { mem := m1, pq := old.take (n - 1).toNat })

end TxQueue

/-! ## The functions of Go's `container/heap` that the program calls -/

namespace TxQueue.heap

open TxQueue

/-- The loop of `container/heap.up`:
`for { i := (j - 1) / 2; if i == j || !h.Less(j, i) { break };
h.Swap(i, j); j = i }`.  Go's integer division truncates toward zero, so
`(0 - 1) / 2 = 0`.  One unit of fuel is one iteration. -/
def up : Nat → Store → Int → Except Fault Store
  | 0, _, _ => .error .outOfFuel
  | fuel + 1, h, j =>
    let i := Int.tdiv (j - 1) 2
    if i = j then .ok h
    else do
      let lt ← PriorityQueue.Less h j i
      if !lt then .ok h
      else do
        let h1 ← PriorityQueue.Swap h i j
        up fuel h1 i

/-- The loop of `container/heap.down`, returning the final `i` with the
state:
`for { j1 := 2*i + 1; if j1 >= n || j1 < 0 { break }; j := j1;
if j2 := j1 + 1; j2 < n && h.Less(j2, j1) { j = j2 };
if !h.Less(j, i) { break }; h.Swap(i, j); i = j }`.
A slice has fewer than `2^63` elements, so for `0 ≤ i < n` the 64-bit value
of `2*i + 1` is either exact or negative; in the second case Go breaks on
`j1 < 0` where the unbounded `2*i + 1 ≥ n` breaks here
(`down_break_test_wrap64`). -/
def downLoop : Nat → Store → Int → Int → Except Fault (Int × Store)
  | 0, _, _, _ => .error .outOfFuel
  | fuel + 1, h, i, n =>
    let j1 := 2 * i + 1
    if j1 ≥ n ∨ j1 < 0 then .ok (i, h)
    else do
      let j2 := j1 + 1
      let lt ← if j2 < n then PriorityQueue.Less h j2 j1 else pure false
      let j := if lt then j2 else j1
      let lt2 ← PriorityQueue.Less h j i
      if !lt2 then .ok (i, h)
      else do
        let h1 ← PriorityQueue.Swap h i j
        downLoop fuel h1 j n

/-- `func down(h Interface, i0, n int) bool`: runs the loop from `i0` and
returns `i > i0`.  The loop moves `i` strictly forward below `n`, so
`len + 1` iterations are enough. -/
def down (h : Store) (i0 n : Int) : Except Fault (Bool × Store) := do
  let (i, h1) ← downLoop (h.pq.length + 1) h i0 n
  pure (decide (i > i0), h1)

/-- `func Push(h Interface, x any) { h.Push(x); up(h, h.Len()-1) }`.  The
loop of `up` strictly decreases `j`, so `len + 1` iterations are enough. -/
def Push (h : Store) (x : Option Ptr) : Except Fault Store := do
  let h1 ← PriorityQueue.Push h x
  up (h1.pq.length + 1) h1 (PriorityQueue.Len h1 - 1)

/-- `func Pop(h Interface) any { n := h.Len() - 1; h.Swap(0, n);
down(h, 0, n); return h.Pop() }`. -/
def Pop (h : Store) : Except Fault (Ptr × Store) := do
  let n := PriorityQueue.Len h - 1
  let h1 ← PriorityQueue.Swap h 0 n
  let (_, h2) ← down h1 0 n
  PriorityQueue.Pop h2

end TxQueue.heap

namespace TxQueue

/-! ## The lock-guarded queue -/

/-- `func (cpq *ConcurrentPriorityQueue) Push(item *Item)`: between
`cpq.mtx.Lock()` and the deferred `cpq.mtx.Unlock()` it runs
`heap.Push(&cpq.pq, item)`. -/
def ConcurrentPriorityQueue.Push (s : Store) (item : Option Ptr) :
    Except Fault Store :=
  heap.Push s item

/-- `func (cpq *ConcurrentPriorityQueue) Pop() *Item`: under the lock,
`if cpq.pq.Len() == 0 { return nil }`, otherwise
`return heap.Pop(&cpq.pq).(*Item)`.  The result `none` is the nil pointer. -/
def ConcurrentPriorityQueue.Pop (s : Store) :
    Except Fault (Option Ptr × Store) :=
  if PriorityQueue.Len s = 0 then .ok (none, s)
  else do
    let (item, s1) ← heap.Pop s
    pure (some item, s1)

/-- `var cpq = ConcurrentPriorityQueue{pq: make(PriorityQueue, 0)}`, in a
memory `mem`. -/
def cpq (mem : Ptr → Item) : Store := { mem := mem, pq := [] }

end TxQueue

namespace TxQueue

/-! ## Vocabulary of the properties -/

/-- The priority read through a pointer. -/
def prio (mem : Ptr → Item) (p : Ptr) : Int := (mem p).priority

/-- The payload read through a pointer. -/
def val (mem : Ptr → Item) (p : Ptr) : String := (mem p).value

/-- Two memories hold the same payload and priority behind every pointer
(they may differ in the `index` bookkeeping field). -/
def SameContent (m m' : Ptr → Item) : Prop :=
  ∀ p, (m' p).value = (m p).value ∧ (m' p).priority = (m p).priority

/-- The priority stored at position `k` of the slice. -/
def key (s : Store) (k : Nat) : Int := prio s.mem (s.pq.getD k 0)

/-- Exchange of the elements at positions `i` and `j` of a slice, as done by
the tuple assignment of `PriorityQueue.Swap`. -/
def swapL (l : List Ptr) (i j : Nat) : List Ptr :=
  (l.set i (l.getD j 0)).set j (l.getD i 0)

/-- Exchange of the values of a position-indexed function at `i` and `j`. -/
def swapF (K : Nat → Int) (i j : Nat) : Nat → Int :=
  fun k => if k = j then K i else if k = i then K j else K k

/-- Max-heap order of the keys at positions below `n`: every position
`k > 0` holds a key no larger than the key of its parent `(k - 1) / 2`. -/
def HeapOn (K : Nat → Int) (n : Nat) : Prop :=
  ∀ k, k < n → 0 < k → K k ≤ K ((k - 1) / 2)

/-- Loop invariant of `heap.up` at position `j`: the heap order holds at
every position except `j`, and the children of `j` are bounded by the parent
of `j`. -/
def UpInv (K : Nat → Int) (n j : Nat) : Prop :=
  (∀ k, k < n → 0 < k → k ≠ j → K k ≤ K ((k - 1) / 2)) ∧
  (∀ k, k < n → 0 < k → (k - 1) / 2 = j → 0 < j → K k ≤ K ((j - 1) / 2))

/-- Loop invariant of `heap.down` at position `i`: the heap order holds at
every position whose parent is not `i`, and the children of `i` are bounded
by the parent of `i`. -/
def DownInv (K : Nat → Int) (n i : Nat) : Prop :=
  (∀ k, k < n → 0 < k → (k - 1) / 2 ≠ i → K k ≤ K ((k - 1) / 2)) ∧
  (∀ k, k < n → 0 < k → (k - 1) / 2 = i → 0 < i → K k ≤ K ((i - 1) / 2))

/-- The child of `i` that `heap.down` compares with `i`: the right child
when it lies below `n` and its key is strictly larger than the left one's,
otherwise the left child. -/
def pickChild (s : Store) (i n : Nat) : Nat :=
  if 2 * i + 2 < n ∧ key s (2 * i + 2) > key s (2 * i + 1) then 2 * i + 2 else 2 * i + 1

/-- The state after `PriorityQueue.Swap` at two valid positions. -/
def swapped (s : Store) (i j : Nat) : Store :=
  { mem := setIndex (setIndex s.mem (s.pq.getD j 0) (i : Int)) (s.pq.getD i 0) (j : Int),
    pq := swapL s.pq i j }

/-- The max-heap invariant of the storage: for every index `k > 0`, the
priority of `storage[k]` is at most the priority of `storage[(k - 1) / 2]`. -/
def IsHeap (s : Store) : Prop := HeapOn (key s) s.pq.length

/-- The queue states reachable from the initial empty queue by a finite
sequence of `ConcurrentPriorityQueue.Push` calls (with non-nil entries) and
`ConcurrentPriorityQueue.Pop` calls. -/
inductive Reachable : Store → Prop where
  | init (mem : Ptr → Item) : Reachable (cpq mem)
  | push {s s' : Store} (p : Ptr) (h : Reachable s)
      (e : ConcurrentPriorityQueue.Push s (some p) = .ok s') : Reachable s'
  | pop {s s' : Store} (r : Option Ptr) (h : Reachable s)
      (e : ConcurrentPriorityQueue.Pop s = .ok (r, s')) : Reachable s'

/-- One call on the queue: a push of a non-nil entry, or a pop. -/
inductive Op where
  | push (item : Ptr)
  | pop
  deriving DecidableEq, Repr

/-- The state after one call (the entry returned by a pop is dropped). -/
def Op.apply (s : Store) : Op → Except Fault Store
  | .push p => ConcurrentPriorityQueue.Push s (some p)
  | .pop =>
    match ConcurrentPriorityQueue.Pop s with
    | .ok (_, s1) => .ok s1
    | .error e => .error e

/-- The state after a sequence of calls made one after the other. -/
def run : Store → List Op → Except Fault Store
  | s, [] => .ok s
  | s, op :: ops =>
    match op.apply s with
    | .ok s1 => run s1 ops
    | .error e => .error e

/-- The state after the sequence of calls `ops` on the initial empty queue in
memory `mem` (the initial state if a call faults). -/
def stateAfter (mem : Ptr → Item) (ops : List Op) : Store :=
  match run (cpq mem) ops with
  | .ok s => s
  | .error _ => cpq mem

/-- A memory with five items of priorities 3, 1, 4, 1, 5 at the addresses
0 to 4. -/
def exampleMem : Ptr → Item := fun p =>
  { value := ["a", "b", "c", "d", "e"].getD p "", priority := [3, 1, 4, 1, 5].getD p 0,
    index := 0 }

/-- The queue after the items of `exampleMem` are pushed in address order. -/
def exampleQueue : Store :=
  stateAfter exampleMem [.push 0, .push 1, .push 2, .push 3, .push 4]

instance instDecidableIsHeap (s : Store) : Decidable (IsHeap s) := by
  unfold IsHeap HeapOn; infer_instance

/-- The state after the entries of a list are pushed one by one. -/
def pushAll : Store → List Ptr → Except Fault Store
  | s, [] => .ok s
  | s, p :: ps =>
    match ConcurrentPriorityQueue.Push s (some p) with
    | .ok s1 => pushAll s1 ps
    | .error e => .error e

/-- The results of `n` successive calls of `ConcurrentPriorityQueue.Pop`, in
order, with the final state. -/
def popN : Nat → Store → Except Fault (List (Option Ptr) × Store)
  | 0, s => .ok ([], s)
  | n + 1, s =>
    match ConcurrentPriorityQueue.Pop s with
    | .ok (r, s1) =>
      match popN n s1 with
      | .ok (rs, s2) => .ok (r :: rs, s2)
      | .error e => .error e
    | .error e => .error e

/-- The priorities of the results of `n` successive pops (`none` for a nil
result). -/
def popPriorities (n : Nat) (s : Store) : Except Fault (List (Option Int)) :=
  match popN n s with
  | .ok (rs, s1) => .ok (rs.map (Option.map (prio s1.mem)))
  | .error e => .error e

/-- The priorities of the results of `n` successive pops made after the
entries of `L` are pushed one by one onto the empty queue in memory `mem`. -/
def pushPopPriorities (mem : Ptr → Item) (L : List Ptr) (n : Nat) :
    Except Fault (List (Option Int)) :=
  match pushAll (cpq mem) L with
  | .ok s => popPriorities n s
  | .error e => .error e

/-- The number of `Push` calls in a sequence of calls. -/
def countPush : List Op → Nat
  | [] => 0
  | .push _ :: ops => countPush ops + 1
  | .pop :: ops => countPush ops

/-- The number of `Pop` calls in a sequence of calls. -/
def countPop : List Op → Nat
  | [] => 0
  | .push _ :: ops => countPop ops
  | .pop :: ops => countPop ops + 1

/-- The value of `PriorityQueue.Len` after the sequence of calls `ops` on the
initial empty queue in memory `mem`. -/
def lenAfter (mem : Ptr → Item) (ops : List Op) : Except Fault Int :=
  match run (cpq mem) ops with
  | .ok s => .ok (PriorityQueue.Len s)
  | .error e => .error e

/-- The result of `ConcurrentPriorityQueue.Push(item)` followed at once by
`ConcurrentPriorityQueue.Pop()`. -/
def pushThenPop (s : Store) (item : Ptr) : Except Fault (Option Ptr) :=
  match ConcurrentPriorityQueue.Push s (some item) with
  | .ok s1 =>
    match ConcurrentPriorityQueue.Pop s1 with
    | .ok (r, _) => .ok r
    | .error e => .error e
  | .error e => .error e

/-- The value of a 64-bit Go `int` computation whose exact result is `x`
(two's complement wrap-around). -/
def wrap64 (x : Int) : Int := (x + 2 ^ 63) % 2 ^ 64 - 2 ^ 63

/-- The entries returned by `n` successive pops made after the entries of
`L` are pushed one by one onto the empty queue in memory `mem`. -/
def pushPopResults (mem : Ptr → Item) (L : List Ptr) (n : Nat) :
    Except Fault (List (Option Ptr)) :=
  match pushAll (cpq mem) L with
  | .ok s =>
    match popN n s with
    | .ok (rs, _) => .ok rs
    | .error e => .error e
  | .error e => .error e

/-- A memory with three items `a`, `b`, `c`, all of priority 1, at the
addresses 0 to 2. -/
def tieMem : Ptr → Item := fun p =>
  { value := ["a", "b", "c"].getD p "", priority := 1, index := 0 }

/-- Position bookkeeping: the stored pointers are pairwise distinct and the
entry stored at position `i` has `index` field `i`. -/
def IndexInv (s : Store) : Prop :=
  s.pq.Nodup ∧ ∀ i, i < s.pq.length → (s.mem (s.pq.getD i 0)).index = (i : Int)

/-- The entries pushed by a sequence of calls, in order. -/
def pushedItems : List Op → List Ptr
  | [] => []
  | .push p :: ops => p :: pushedItems ops
  | .pop :: ops => pushedItems ops

/-- The sift-down of the specification on a sequence `l` with priorities
`f`, from position `i`: while `i` has a child, take its higher-priority child
and swap with it unless the heap order already holds between them.  The
specification leaves open which child is taken when both have the same
priority; `tieRight` selects the right one, and `false` is the rule of
`heap.down` (the left one).  One unit of fuel is one swap. -/
def specSiftDown (f : Ptr → Int) (tieRight : Bool) : Nat → List Ptr → Nat → List Ptr
  | 0, l, _ => l
  | fuel + 1, l, i =>
    if 2 * i + 1 < l.length then
      let c :=
        if 2 * i + 2 < l.length ∧
            (f (l.getD (2 * i + 2) 0) > f (l.getD (2 * i + 1) 0) ∨
              (tieRight = true ∧ f (l.getD (2 * i + 2) 0) = f (l.getD (2 * i + 1) 0)))
        then 2 * i + 2 else 2 * i + 1
      if f (l.getD c 0) > f (l.getD i 0) then specSiftDown f tieRight fuel (swapL l i c) c
      else l
    else l

/-- The extraction as the specification describes it: on the empty sequence
the `EmptyQueue` condition (`none`); otherwise save the root, move the last
element into the root position, shrink the sequence by one, sift the new
root down, and return the saved root with the resulting sequence. -/
def specExtractMax (f : Ptr → Int) (tieRight : Bool) (l : List Ptr) :
    Option (Ptr × List Ptr) :=
  match l with
  | [] => none
  | root :: _ =>
    let last := l.getD (l.length - 1) 0
    let moved := (l.set 0 last).take (l.length - 1)
    some (root, specSiftDown f tieRight moved.length moved 0)

/-- A byte of a Go byte slice. -/
abbrev Byte := Fin 256

/-- Go's conversion `string(body)` of a byte slice.  A Go string is a byte
sequence; it is represented by the `String` holding one character per byte
(the character whose code is the byte). -/
def bytesToString (b : List Byte) : String :=
  String.mk (b.map fun x => Char.ofNat x.val)

/-- The part of `*http.Request` that `handlePost` reads: the method, and the
outcome of `io.ReadAll(r.Body)` (the bytes read, or the read error). -/
structure Request where
  Method : String
  Body : Except String (List Byte)

/-- What a handler has written to its `http.ResponseWriter`: the status
code and the body. -/
structure Response where
  status : Nat
  body : String
  deriving DecidableEq, Repr

/-- The constant `http.MethodPost`. -/
def http.MethodPost : String := "POST"

/-- The constant `http.StatusOK`, the status of a reply written without an
explicit `WriteHeader`. -/
def http.StatusOK : Nat := 200

/-- The constant `http.StatusMethodNotAllowed`. -/
def http.StatusMethodNotAllowed : Nat := 405

/-- The constant `http.StatusInternalServerError`. -/
def http.StatusInternalServerError : Nat := 500

/-- The function `http.Error(w, msg, code)` of `net/http`: it writes the
status `code` and the message followed by a newline. -/
def http.Error (msg : String) (code : Nat) : Response :=
  { status := code, body := msg ++ "\n" }

/-- The composite literal `&Item{value: v, priority: p}` allocated at the
address `a`; the field `index` has its zero value. -/
def newItem (mem : Ptr → Item) (a : Ptr) (v : String) (p : Int) : Ptr → Item :=
  fun q => if q = a then { value := v, priority := p, index := 0 } else mem q

/-- `func handlePost(w http.ResponseWriter, r *http.Request, txHandler
*TxHandler)`, acting on the global queue `cpq`; `a` is the address the
allocator gives to the new `Item`, and `txHandler` is not used by the body.
The result is what was written to `w`, with the state of the queue. -/
def handlePost (s : Store) (a : Ptr) (r : Request) : Except Fault (Response × Store) :=
  if r.Method = http.MethodPost then
    match r.Body with
    | .error _ =>
      .ok (http.Error "Error reading request body" http.StatusInternalServerError, s)
    | .ok body =>
      match ConcurrentPriorityQueue.Push
          { mem := newItem s.mem a (bytesToString body) (body.length : Int), pq := s.pq }
          (some a) with
      | .ok s1 =>
        .ok ({ status := http.StatusOK, body := "Received POST request and added to queue" }, s1)
      | .error e => .error e
  else .ok (http.Error "Invalid request method" http.StatusMethodNotAllowed, s)

/-- A line printed by `fmt.Println` in `HandleTx`: the decode error, or the
decoded transaction (`none` is the nil transaction). -/
inductive Printed (Tx : Type) where
  | err (e : String)
  | tx (t : Option Tx)

/-- The struct `TxHandler`, reduced to the decoder `t.txConfig.TxDecoder()`.
The decoder belongs to the cosmos-sdk, outside the repository, and is a
parameter: a function from the bytes to a transaction or a decode error. -/
structure TxHandler (Tx : Type) where
  txConfig : List Byte → Except String Tx

/-- The Go result pair `(tx, err)` of a decoder call: a successful decode
returns the transaction with a nil error, a failed decode returns the nil
transaction with the error. -/
def goResult {Tx : Type} : Except String Tx → Option Tx × Option String
  | .ok tx => (some tx, none)
  | .error e => (none, some e)

/-- `func (t *TxHandler) HandleTx(txBytes []byte) types.Tx`:
`tx, err := t.txConfig.TxDecoder()(txBytes)`,
`if err != nil { fmt.Println(err) }`, `fmt.Println(tx)`, `return tx`.
The result is the returned transaction with the lines printed. -/
def TxHandler.HandleTx {Tx : Type} (t : TxHandler Tx) (txBytes : List Byte) :
    Option Tx × List (Printed Tx) :=
  let r := goResult (t.txConfig txBytes)
  let tx := r.1
  let err := r.2
  let out1 : List (Printed Tx) :=
    match err with
    | some e => [Printed.err e]
    | none => []
  (tx, out1 ++ [Printed.tx tx])

/-- A memory with four items of priorities 5, 3, 3, 1 at the addresses
0 to 3. -/
def tieChildrenMem : Ptr → Item := fun p =>
  { value := "", priority := [5, 3, 3, 1].getD p 0, index := 0 }

end TxQueue

/-! # Properties -/

namespace TxQueue

/-! ## Slices: indexing and exchange of two positions -/

theorem idx_natCast (l : PriorityQueue) (k : Nat) (h : k < l.length) :
    idx l (k : Int) = .ok (l.getD k 0) := by
  simp [idx, List.getD, List.getElem?_eq_getElem h]

theorem idx_neg (l : PriorityQueue) (i : Int) (h : i < 0) :
    idx l i = .error .indexOutOfRange := by
  simp [idx, not_le.mpr h]

theorem swapL_length (l : List Ptr) (i j : Nat) :
    (swapL l i j).length = l.length := by
  simp [swapL]

theorem swapL_getD (l : List Ptr) (i j k : Nat) (hi : i < l.length)
    (hj : j < l.length) :
    (swapL l i j).getD k 0 =
      if k = j then l.getD i 0 else if k = i then l.getD j 0 else l.getD k 0 := by
  unfold swapL
  simp only [List.getD_eq_getElem?_getD, List.getElem?_set]
  by_cases h1 : j = k
  · subst h1; simp [hj]
  · by_cases h2 : i = k
    · subst h2; simp [h1, hi, Ne.symm h1]
    · simp [h1, h2, Ne.symm h1, Ne.symm h2]

theorem swapL_perm (l : List Ptr) (i j : Nat) (hi : i < l.length)
    (hj : j < l.length) : (swapL l i j).Perm l := by
  rw [List.perm_iff_count]
  intro a
  unfold swapL
  rw [List.count_set _ _ _ _ (by simpa using hj), List.count_set _ _ _ _ hi]
  simp only [List.getD_eq_getElem?_getD, List.getElem?_eq_getElem hi,
    List.getElem?_eq_getElem hj, Option.getD_some, List.getElem_set]
  have h1 : 0 < List.count l[i] l := List.count_pos_iff.mpr (List.getElem_mem _)
  have h2 : 0 < List.count l[j] l := List.count_pos_iff.mpr (List.getElem_mem _)
  by_cases hij : i = j
  · subst hij
    by_cases ha : l[i] = a
    · subst ha; simp
    · simp [ha, beq_iff_eq]
  · simp only [hij, if_false]
    by_cases ha : l[i] = a
    · subst ha
      by_cases hb : l[j] = l[i]
      · simp [hb, beq_iff_eq]
      · simp [hb, beq_iff_eq]
    · by_cases hb : l[j] = a
      · subst hb; simp [ha, beq_iff_eq]
      · simp [ha, hb, beq_iff_eq]

/-! ## Memory content and the primitive methods -/

theorem SameContent.refl (m : Ptr → Item) : SameContent m m := fun _ => ⟨rfl, rfl⟩

theorem SameContent.trans {m1 m2 m3 : Ptr → Item} (h12 : SameContent m1 m2)
    (h23 : SameContent m2 m3) : SameContent m1 m3 := fun p =>
  ⟨(h23 p).1.trans (h12 p).1, (h23 p).2.trans (h12 p).2⟩

theorem SameContent.prio_eq {m m' : Ptr → Item} (h : SameContent m m') :
    prio m' = prio m := funext fun p => (h p).2

theorem sameContent_setIndex (m : Ptr → Item) (p : Ptr) (i : Int) :
    SameContent m (setIndex m p i) := by
  intro q
  unfold setIndex
  by_cases h : q = p
  · subst h; simp
  · simp [h]

theorem Less_natCast (s : Store) (i j : Nat) (hi : i < s.pq.length)
    (hj : j < s.pq.length) :
    PriorityQueue.Less s (i : Int) (j : Int) = .ok (decide (key s i > key s j)) := by
  simp [PriorityQueue.Less, idx_natCast _ _ hi, idx_natCast _ _ hj, key, prio, bind, Except.bind, pure, Except.pure]

theorem Swap_natCast (s : Store) (i j : Nat) (hi : i < s.pq.length)
    (hj : j < s.pq.length) :
    PriorityQueue.Swap s (i : Int) (j : Int) =
      .ok { mem := setIndex (setIndex s.mem (s.pq.getD j 0) i) (s.pq.getD i 0) j,
            pq := swapL s.pq i j } := by
  have hi' : i < (swapL s.pq i j).length := by rw [swapL_length]; exact hi
  have hj' : j < (swapL s.pq i j).length := by rw [swapL_length]; exact hj
  have e1 := idx_natCast _ _ hi'
  have e2 := idx_natCast _ _ hj'
  have g1 : (swapL s.pq i j).getD i 0 = s.pq.getD j 0 := by
    rw [swapL_getD _ _ _ _ hi hj]
    by_cases h : i = j
    · subst h; simp
    · simp [h]
  have g2 : (swapL s.pq i j).getD j 0 = s.pq.getD i 0 := by
    rw [swapL_getD _ _ _ _ hi hj]; simp
  rw [g1] at e1
  rw [g2] at e2
  unfold swapL at e1 e2
  simp only [PriorityQueue.Swap, idx_natCast _ _ hi, idx_natCast _ _ hj, bind,
    Except.bind, pure, Except.pure, Int.toNat_ofNat, e1, e2, swapL]

theorem Swap_sameContent (s : Store) (i j : Nat) :
    SameContent s.mem
      (setIndex (setIndex s.mem (s.pq.getD j 0) i) (s.pq.getD i 0) j) :=
  (sameContent_setIndex _ _ _).trans (sameContent_setIndex _ _ _)

theorem upInv_stop (K : Nat → Int) (n j : Nat) (h : UpInv K n j)
    (hs : j = 0 ∨ K j ≤ K ((j - 1) / 2)) : HeapOn K n := by
  intro k hk hk0
  by_cases hkj : k = j
  · subst hkj
    rcases hs with hs | hs
    · omega
    · exact hs
  · exact h.1 k hk hk0 hkj

theorem upInv_step (K : Nat → Int) (n j : Nat) (h : UpInv K n j) (hj0 : 0 < j)
    (hjn : j < n) (hlt : K ((j - 1) / 2) < K j) :
    UpInv (swapF K ((j - 1) / 2) j) n ((j - 1) / 2) := by
  obtain ⟨h1, h2⟩ := h
  have hij : (j - 1) / 2 < j := by omega
  constructor
  · intro k hk hk0 hki
    by_cases hkj : k = j
    · subst hkj
      have : swapF K ((k - 1) / 2) k k = K ((k - 1) / 2) := by simp [swapF]
      have e2 : swapF K ((k - 1) / 2) k ((k - 1) / 2) = K k := by
        unfold swapF; rw [if_neg (by omega)]; simp
      rw [this, e2]; omega
    · have e1 : swapF K ((j - 1) / 2) j k = K k := by simp [swapF, hkj, hki]
      rw [e1]
      by_cases hp1 : (k - 1) / 2 = (j - 1) / 2
      · have e2 : swapF K ((j - 1) / 2) j ((k - 1) / 2) = K j := by
          unfold swapF; rw [if_neg (by omega), if_pos hp1]
        rw [e2]
        have := h1 k hk hk0 hkj
        rw [hp1] at this; omega
      · by_cases hp2 : (k - 1) / 2 = j
        · have e2 : swapF K ((j - 1) / 2) j ((k - 1) / 2) = K ((j - 1) / 2) := by
            unfold swapF; rw [if_pos hp2]
          rw [e2]
          exact h2 k hk hk0 hp2 hj0
        · have e2 : swapF K ((j - 1) / 2) j ((k - 1) / 2) = K ((k - 1) / 2) := by
            unfold swapF; rw [if_neg hp2, if_neg hp1]
          rw [e2]
          exact h1 k hk hk0 hkj
  · intro k hk hk0 hpk hi0
    have e2 : swapF K ((j - 1) / 2) j (((j - 1) / 2 - 1) / 2) = K (((j - 1) / 2 - 1) / 2) := by
      unfold swapF; rw [if_neg (by omega), if_neg (by omega)]
    rw [e2]
    have hpi := h1 ((j - 1) / 2) (by omega) hi0 (by omega)
    by_cases hkj : k = j
    · subst hkj
      have : swapF K ((k - 1) / 2) k k = K ((k - 1) / 2) := by simp [swapF]
      rw [this]; exact hpi
    · have e1 : swapF K ((j - 1) / 2) j k = K k := by
        unfold swapF; rw [if_neg hkj, if_neg (by omega)]
      rw [e1]
      have := h1 k hk hk0 hkj
      rw [hpk] at this; omega

theorem downInv_stop (K : Nat → Int) (n i : Nat) (h : DownInv K n i)
    (hs : ∀ k, k < n → 0 < k → (k - 1) / 2 = i → K k ≤ K i) : HeapOn K n := by
  intro k hk hk0
  by_cases hki : (k - 1) / 2 = i
  · have := hs k hk hk0 hki
    rw [hki]; exact this
  · exact h.1 k hk hk0 hki

theorem downInv_step (K : Nat → Int) (n i j : Nat) (h : DownInv K n i)
    (hjn : j < n) (hj0 : 0 < j) (hpj : (j - 1) / 2 = i) (hlt : K i < K j)
    (hmax : ∀ k, k < n → 0 < k → (k - 1) / 2 = i → K k ≤ K j) :
    DownInv (swapF K i j) n j := by
  obtain ⟨h1, h2⟩ := h
  have hij : i < j := by omega
  constructor
  · intro k hk hk0 hpk
    by_cases hkj : k = j
    · subst hkj
      have e1 : swapF K i k k = K i := by simp [swapF]
      have e2 : swapF K i k ((k - 1) / 2) = K k := by
        unfold swapF; rw [if_neg hpk, if_pos hpj]
      rw [e1, e2]; omega
    · by_cases hki : k = i
      · subst hki
        have e1 : swapF K k j k = K j := by
          unfold swapF; rw [if_neg hkj, if_pos rfl]
        have e2 : swapF K k j ((k - 1) / 2) = K ((k - 1) / 2) := by
          unfold swapF; rw [if_neg hpk, if_neg (by omega)]
        rw [e1, e2]
        exact h2 j hjn hj0 hpj hk0
      · have e1 : swapF K i j k = K k := by
          unfold swapF; rw [if_neg hkj, if_neg hki]
        rw [e1]
        by_cases hp : (k - 1) / 2 = i
        · have e2 : swapF K i j ((k - 1) / 2) = K j := by
            unfold swapF; rw [if_neg hpk, if_pos hp]
          rw [e2]
          exact hmax k hk hk0 hp
        · have e2 : swapF K i j ((k - 1) / 2) = K ((k - 1) / 2) := by
            unfold swapF; rw [if_neg hpk, if_neg hp]
          rw [e2]
          exact h1 k hk hk0 hp
  · intro k hk hk0 hpk _
    have e2 : swapF K i j ((j - 1) / 2) = K j := by
      unfold swapF; rw [if_neg (by omega), if_pos hpj]
    have e1 : swapF K i j k = K k := by
      unfold swapF; rw [if_neg (by omega), if_neg (by omega)]
    rw [e1, e2]
    have := h1 k hk hk0 (by omega)
    rw [hpk] at this; exact this

/-- In a max-heap the root key bounds every key. -/
theorem heapOn_root_max (K : Nat → Int) (n : Nat) (h : HeapOn K n) :
    ∀ k, k < n → K k ≤ K 0 := by
  intro k
  induction k using Nat.strong_induction_on with
  | _ k ih =>
    intro hk
    by_cases hk0 : k = 0
    · subst hk0; exact le_refl _
    · have h1 := h k hk (by omega)
      have h2 := ih ((k - 1) / 2) (by omega) (by omega)
      omega

theorem tdiv_parent (j : Nat) (h : 0 < j) :
    Int.tdiv ((j : Int) - 1) 2 = (((j - 1) / 2 : Nat) : Int) := by
  rw [Int.tdiv_eq_ediv (by omega) (by omega)]
  omega

theorem tdiv_parent_zero : Int.tdiv ((0 : Int) - 1) 2 = 0 := by decide

theorem key_swap (s : Store) (i j : Nat) (hi : i < s.pq.length)
    (hj : j < s.pq.length) (m' : Ptr → Item) (hm : SameContent s.mem m') :
    key { mem := m', pq := swapL s.pq i j } = swapF (key s) i j := by
  funext k
  simp only [key, swapF, hm.prio_eq, swapL_getD _ _ _ _ hi hj]
  split
  · rfl
  · split <;> rfl

theorem up_spec (fuel : Nat) : ∀ (s : Store) (j : Nat), j < s.pq.length → j < fuel →
    ∃ s', heap.up fuel s (j : Int) = .ok s' ∧ s'.pq.Perm s.pq ∧
      SameContent s.mem s'.mem ∧
      (UpInv (key s) s.pq.length j → HeapOn (key s') s'.pq.length) := by
  induction fuel with
  | zero => intro s j _ h; omega
  | succ fuel ih =>
    intro s j hj hf
    by_cases hj0 : j = 0
    · subst hj0
      refine ⟨s, ?_, List.Perm.refl _, SameContent.refl _, ?_⟩
      · show heap.up (fuel + 1) s (0 : Int) = _
        simp only [heap.up, tdiv_parent_zero, if_true]
      · intro h; exact upInv_stop _ _ _ h (Or.inl rfl)
    · have hj0' : 0 < j := by omega
      have hi : (j - 1) / 2 < s.pq.length := by omega
      have hne : ¬ ((((j - 1) / 2 : Nat) : Int) = (j : Int)) := by omega
      by_cases hlt : key s j > key s ((j - 1) / 2)
      · obtain ⟨s', hs', hperm, hsame, hheap⟩ :=
          ih { mem := setIndex (setIndex s.mem (s.pq.getD j 0) (((j - 1) / 2 : Nat) : Int))
                  (s.pq.getD ((j - 1) / 2) 0) (j : Int),
               pq := swapL s.pq ((j - 1) / 2) j } ((j - 1) / 2)
            (by simp only [swapL_length]; exact hi) (by omega)
        refine ⟨s', ?_, ?_, ?_, ?_⟩
        · simp only [heap.up, tdiv_parent j hj0', hne, if_false, Less_natCast s j _ hj hi,
            Swap_natCast s _ j hi hj, bind, Except.bind, hlt, decide_True, Bool.not_true]
          exact hs'
        · exact hperm.trans (swapL_perm _ _ _ hi hj)
        · exact (Swap_sameContent s _ _).trans hsame
        · intro hinv
          apply hheap
          simp only [swapL_length]
          rw [key_swap s _ _ hi hj _ (Swap_sameContent s _ _)]
          exact upInv_step _ _ _ hinv hj0' hj hlt
      · refine ⟨s, ?_, List.Perm.refl _, SameContent.refl _, ?_⟩
        · simp only [heap.up, tdiv_parent j hj0', hne, if_false, Less_natCast s j _ hj hi,
            bind, Except.bind, hlt, decide_False, Bool.not_false, if_true]
        · intro h; exact upInv_stop _ _ _ h (Or.inr (by omega))

/-- The break test of `heap.down` on the 64-bit value of `2*i + 1` agrees
with the test on the exact value: for `0 ≤ i < n < 2^63` the wrapped value is
`≥ n` or negative exactly when `2*i + 1 ≥ n`. -/
theorem down_break_test_wrap64 (i n : Int) (hi : 0 ≤ i) (hin : i < n)
    (hn : n < 2 ^ 63) :
    (wrap64 (2 * i + 1) ≥ n ∨ wrap64 (2 * i + 1) < 0) ↔
      (2 * i + 1 ≥ n ∨ 2 * i + 1 < 0) := by
  unfold wrap64
  norm_num at hn ⊢
  omega

theorem downLoop_stop (fuel : Nat) (s : Store) (i n : Nat) (h : n ≤ 2 * i + 1) :
    heap.downLoop (fuel + 1) s (i : Int) (n : Int) = .ok ((i : Int), s) := by
  have hc : (2 * (i : Int) + 1 ≥ (n : Int) ∨ 2 * (i : Int) + 1 < 0) := by omega
  simp only [heap.downLoop, hc, if_true]

theorem downLoop_step (fuel : Nat) (s : Store) (i n : Nat) (hn : n ≤ s.pq.length)
    (h : 2 * i + 1 < n) :
    heap.downLoop (fuel + 1) s (i : Int) (n : Int) =
      if key s (pickChild s i n) > key s i then
        heap.downLoop fuel (swapped s i (pickChild s i n)) ((pickChild s i n : Nat) : Int) (n : Int)
      else .ok ((i : Int), s) := by
  have hc : ¬ (((2 * i + 1 : Nat) : Int) ≥ (n : Int) ∨ ((2 * i + 1 : Nat) : Int) < 0) := by omega
  have e1 : (2 * (i : Int) + 1) = ((2 * i + 1 : Nat) : Int) := by push_cast; ring
  have e2 : ((2 * i + 1 : Nat) : Int) + 1 = ((2 * i + 2 : Nat) : Int) := by push_cast; ring
  have hi : i < s.pq.length := by omega
  have h1 : 2 * i + 1 < s.pq.length := by omega
  by_cases h2 : 2 * i + 2 < n
  · have h2' : ((2 * i + 2 : Nat) : Int) < (n : Int) := by omega
    have h2l : 2 * i + 2 < s.pq.length := by omega
    by_cases hk : key s (2 * i + 2) > key s (2 * i + 1)
    · have hp : pickChild s i n = 2 * i + 2 := by simp [pickChild, h2, hk]
      rw [hp]
      simp only [heap.downLoop, e1, hc, if_false, e2, h2', if_true, Less_natCast s _ _ h2l h1,
        bind, Except.bind, hk, decide_True, Less_natCast s _ _ h2l hi, Swap_natCast s _ _ hi h2l,
        swapped]
      by_cases hki : key s (2 * i + 2) > key s i
      · simp only [hki, decide_True, Bool.not_true, if_true]; rfl
      · simp only [hki, decide_False, Bool.not_false, if_true, if_false]
    · have hp : pickChild s i n = 2 * i + 1 := by simp [pickChild, hk]
      rw [hp]
      simp only [heap.downLoop, e1, hc, if_false, e2, h2', if_true, Less_natCast s _ _ h2l h1,
        bind, Except.bind, hk, decide_False, Bool.false_eq_true, Less_natCast s _ _ h1 hi, Swap_natCast s _ _ hi h1,
        swapped]
      by_cases hki : key s (2 * i + 1) > key s i
      · simp only [hki, decide_True, Bool.not_true, if_true]; rfl
      · simp only [hki, decide_False, Bool.not_false, if_true, if_false]
  · have h2' : ¬ ((2 * i + 2 : Nat) : Int) < (n : Int) := by omega
    have hp : pickChild s i n = 2 * i + 1 := by simp [pickChild, h2]
    rw [hp]
    simp only [heap.downLoop, e1, hc, if_false, e2, h2', pure, Except.pure, Bool.false_eq_true,
      bind, Except.bind, Less_natCast s _ _ h1 hi, Swap_natCast s _ _ hi h1,
      swapped]
    by_cases hki : key s (2 * i + 1) > key s i
    · simp only [hki, decide_True, Bool.not_true, if_true]; rfl
    · simp only [hki, decide_False, Bool.not_false, if_true, if_false]

theorem pickChild_spec (s : Store) (i n : Nat) (h : 2 * i + 1 < n) :
    pickChild s i n < n ∧ 0 < pickChild s i n ∧ (pickChild s i n - 1) / 2 = i ∧
      ∀ k, k < n → 0 < k → (k - 1) / 2 = i → key s k ≤ key s (pickChild s i n) := by
  unfold pickChild
  split
  · rename_i hc
    refine ⟨hc.1, by omega, by omega, ?_⟩
    intro k hk hk0 hpk
    have : k = 2 * i + 1 ∨ k = 2 * i + 2 := by omega
    rcases this with rfl | rfl
    · omega
    · exact le_refl _
  · rename_i hc
    refine ⟨h, by omega, by omega, ?_⟩
    intro k hk hk0 hpk
    have : k = 2 * i + 1 ∨ k = 2 * i + 2 := by omega
    rcases this with rfl | rfl
    · exact le_refl _
    · have : ¬ key s (2 * i + 2) > key s (2 * i + 1) := fun h' => hc ⟨hk, h'⟩
      omega

theorem swapped_sameContent (s : Store) (i j : Nat) :
    SameContent s.mem (swapped s i j).mem :=
  Swap_sameContent s i j

theorem key_swapped (s : Store) (i j : Nat) (hi : i < s.pq.length)
    (hj : j < s.pq.length) : key (swapped s i j) = swapF (key s) i j :=
  key_swap s i j hi hj _ (Swap_sameContent s i j)

theorem downLoop_spec (fuel : Nat) : ∀ (s : Store) (i n : Nat), n ≤ s.pq.length →
    n - i < fuel →
    ∃ i' s', heap.downLoop fuel s (i : Int) (n : Int) = .ok (i', s') ∧
      s'.pq.Perm s.pq ∧ SameContent s.mem s'.mem ∧
      (∀ k, n ≤ k → s'.pq.getD k 0 = s.pq.getD k 0) ∧
      (DownInv (key s) n i → HeapOn (key s') n) := by
  induction fuel with
  | zero => intro s i n _ h; omega
  | succ fuel ih =>
    intro s i n hn hf
    by_cases hstop : n ≤ 2 * i + 1
    · refine ⟨_, s, downLoop_stop fuel s i n hstop, List.Perm.refl _, SameContent.refl _,
        fun _ _ => rfl, ?_⟩
      intro hinv
      apply downInv_stop _ _ _ hinv
      intro k hk hk0 hpk
      omega
    · have hlt : 2 * i + 1 < n := by omega
      obtain ⟨hjn, hj0, hpj, hmax⟩ := pickChild_spec s i n hlt
      have hi : i < s.pq.length := by omega
      have hj : pickChild s i n < s.pq.length := by omega
      rw [downLoop_step fuel s i n hn hlt]
      by_cases hk : key s (pickChild s i n) > key s i
      · rw [if_pos hk]
        obtain ⟨i', s', hs', hperm, hsame, hframe, hheap⟩ :=
          ih (swapped s i (pickChild s i n)) (pickChild s i n) n
            (by simp only [swapped, swapL_length]; exact hn) (by omega)
        refine ⟨i', s', hs', ?_, ?_, ?_, ?_⟩
        · exact hperm.trans (swapL_perm _ _ _ hi hj)
        · exact (swapped_sameContent s _ _).trans hsame
        · intro k hk'
          rw [hframe k hk']
          simp only [swapped]
          rw [swapL_getD _ _ _ _ hi hj, if_neg (by omega), if_neg (by omega)]
        · intro hinv
          apply hheap
          rw [key_swapped s _ _ hi hj]
          exact downInv_step _ _ _ _ hinv hjn hj0 hpj hk hmax
      · rw [if_neg hk]
        refine ⟨_, s, rfl, List.Perm.refl _, SameContent.refl _, fun _ _ => rfl, ?_⟩
        intro hinv
        apply downInv_stop _ _ _ hinv
        intro k hk' hk0 hpk
        have := hmax k hk' hk0 hpk
        omega

theorem take_append_last (l : List Ptr) (n : Nat) (h : l.length = n + 1) :
    l.take n ++ [l.getD n 0] = l := by
  apply List.ext_getElem?
  intro k
  by_cases hk : k < n
  · rw [List.getElem?_append_left (by simp; omega)]
    simp [List.getElem?_take, hk]
  · by_cases hk2 : k = n
    · subst hk2
      rw [List.getElem?_append_right (by simp)]
      simp [h, List.getD_eq_getElem?_getD]
    · rw [List.getElem?_eq_none (by simp; omega), List.getElem?_eq_none (by omega)]

theorem heapPush_spec (s : Store) (p : Ptr) :
    ∃ s', heap.Push s (some p) = .ok s' ∧ s'.pq.Perm (p :: s.pq) ∧
      SameContent s.mem s'.mem ∧ (IsHeap s → IsHeap s') := by
  have hlen : (s.pq ++ [p]).length = s.pq.length + 1 := by simp
  obtain ⟨s', hs', hperm, hsame, hheap⟩ :=
    up_spec ((s.pq ++ [p]).length + 1)
      { mem := setIndex s.mem p (PriorityQueue.Len s), pq := s.pq ++ [p] } s.pq.length
      (by simp) (by simp; omega)
  refine ⟨s', ?_, ?_, ?_, ?_⟩
  · have e : PriorityQueue.Len { mem := setIndex s.mem p (PriorityQueue.Len s), pq := s.pq ++ [p] } - 1
        = (s.pq.length : Int) := by
      simp [PriorityQueue.Len]
    simp only [heap.Push, PriorityQueue.Push, bind, Except.bind, e]
    exact hs'
  · exact hperm.trans (List.perm_append_singleton p s.pq)
  · exact (sameContent_setIndex _ _ _).trans hsame
  · intro hh
    have hl := hperm.length_eq
    simp only [IsHeap]
    apply hheap
    simp only [hlen]
    constructor
    · intro k hk hk0 hkn
      have hk' : k < s.pq.length := by omega
      have := hh k hk' hk0
      simp only [key, (sameContent_setIndex s.mem p (PriorityQueue.Len s)).prio_eq] at this ⊢
      rw [List.getD_append _ _ _ _ hk', List.getD_append _ _ _ _ (by omega)]
      exact this
    · intro k hk hk0 hpk
      omega

theorem pqPop_spec (s : Store) (n : Nat) (hlen : s.pq.length = n + 1) :
    PriorityQueue.Pop s =
      .ok (s.pq.getD n 0, { mem := setIndex s.mem (s.pq.getD n 0) (-1), pq := s.pq.take n }) := by
  have e : ((s.pq.length : Int) - 1) = (n : Int) := by omega
  simp only [PriorityQueue.Pop, e, idx_natCast s.pq n (by omega), bind, Except.bind, pure,
    Except.pure, Int.toNat_ofNat]

theorem heapPop_spec (s : Store) (n : Nat) (hlen : s.pq.length = n + 1) :
    ∃ s', heap.Pop s = .ok (s.pq.getD 0 0, s') ∧ (s.pq.getD 0 0 :: s'.pq).Perm s.pq ∧
      SameContent s.mem s'.mem ∧ (IsHeap s → IsHeap s') := by
  have h0 : 0 < s.pq.length := by omega
  have hn : n < s.pq.length := by omega
  have e0 : PriorityQueue.Len s - 1 = (n : Int) := by
    simp only [PriorityQueue.Len]; omega
  have hswap : PriorityQueue.Swap s 0 (n : Int) = .ok (swapped s 0 n) :=
    Swap_natCast s 0 n h0 hn
  have hl1 : (swapped s 0 n).pq.length = n + 1 := by
    simp only [swapped, swapL_length]; exact hlen
  obtain ⟨i', s2, hs2, hperm, hsame, hframe, hheap⟩ :=
    downLoop_spec ((swapped s 0 n).pq.length + 1) (swapped s 0 n) 0 n (by omega) (by omega)
  have hs2' : heap.downLoop ((swapped s 0 n).pq.length + 1) (swapped s 0 n) 0 (n : Int)
      = .ok (i', s2) := hs2
  have hl2 : s2.pq.length = n + 1 := by rw [hperm.length_eq]; exact hl1
  have hlast : s2.pq.getD n 0 = s.pq.getD 0 0 := by
    rw [hframe n (le_refl _)]
    simp only [swapped]
    rw [swapL_getD _ _ _ _ h0 hn, if_pos rfl]
  refine ⟨{ mem := setIndex s2.mem (s2.pq.getD n 0) (-1), pq := s2.pq.take n }, ?_, ?_, ?_, ?_⟩
  · simp only [heap.Pop, e0, hswap, heap.down, hs2', bind, Except.bind, pure, Except.pure,
      pqPop_spec s2 n hl2, hlast]
  · have h1 : (s.pq.getD 0 0 :: s2.pq.take n).Perm (s2.pq.take n ++ [s2.pq.getD n 0]) := by
      rw [hlast]; exact (List.perm_append_singleton _ _).symm
    rw [take_append_last s2.pq n hl2] at h1
    exact h1.trans (hperm.trans (swapL_perm _ _ _ h0 hn))
  · exact ((swapped_sameContent s 0 n).trans hsame).trans (sameContent_setIndex _ _ _)
  · intro hh
    have hinv : DownInv (key (swapped s 0 n)) n 0 := by
      rw [key_swapped s 0 n h0 hn]
      constructor
      · intro k hk hk0 hpk
        have := hh k (by omega) hk0
        simp only [swapF]
        rw [if_neg (by omega), if_neg (by omega), if_neg (by omega), if_neg (by omega)]
        exact this
      · intro k _ _ _ h; omega
    have h2 := hheap hinv
    intro k hk hk0
    have hk' : k < n := by
      have := hk
      simp only [List.length_take] at this
      omega
    have := h2 k hk' hk0
    simp only [key, (sameContent_setIndex s2.mem (s2.pq.getD n 0) (-1)).prio_eq] at this ⊢
    simp only [List.getD_eq_getElem?_getD, List.getElem?_take] at this ⊢
    rw [if_pos hk', if_pos (by omega)]
    exact this

theorem cpqPush_spec (s : Store) (p : Ptr) :
    ∃ s', ConcurrentPriorityQueue.Push s (some p) = .ok s' ∧ s'.pq.Perm (p :: s.pq) ∧
      SameContent s.mem s'.mem ∧ (IsHeap s → IsHeap s') :=
  heapPush_spec s p

theorem cpqPop_nil (s : Store) (h : s.pq = []) :
    ConcurrentPriorityQueue.Pop s = .ok (none, s) := by
  simp [ConcurrentPriorityQueue.Pop, PriorityQueue.Len, h]

theorem cpqPop_cons (s : Store) (h : s.pq ≠ []) :
    ∃ s', ConcurrentPriorityQueue.Pop s = .ok (some (s.pq.getD 0 0), s') ∧
      (s.pq.getD 0 0 :: s'.pq).Perm s.pq ∧ SameContent s.mem s'.mem ∧
      (IsHeap s → IsHeap s') := by
  have hpos : 0 < s.pq.length := List.length_pos.mpr h
  obtain ⟨s', h1, h2, h3, h4⟩ := heapPop_spec s (s.pq.length - 1) (by omega)
  refine ⟨s', ?_, h2, h3, h4⟩
  have hne : ¬ PriorityQueue.Len s = 0 := by
    simp only [PriorityQueue.Len]; omega
  simp only [ConcurrentPriorityQueue.Pop, hne, if_false, h1, bind, Except.bind, pure, Except.pure]

theorem isHeap_cpq (mem : Ptr → Item) : IsHeap (cpq mem) := by
  intro k hk _
  simp [cpq] at hk

theorem reachable_isHeap {s : Store} (h : Reachable s) : IsHeap s := by
  induction h with
  | init mem => exact isHeap_cpq mem
  | push p _ e ih =>
    obtain ⟨s', h1, _, _, h4⟩ := cpqPush_spec _ p
    rw [e] at h1
    cases h1
    exact h4 ih
  | @pop s s' r _ e ih =>
    by_cases hs : s.pq = []
    · rw [cpqPop_nil s hs] at e
      cases e
      exact ih
    · obtain ⟨s', h1, _, _, h4⟩ := cpqPop_cons s hs
      rw [e] at h1
      cases h1
      exact h4 ih

theorem reachable_run (ops : List Op) : ∀ (s s' : Store), Reachable s →
    run s ops = .ok s' → Reachable s' := by
  induction ops with
  | nil => intro s s' h e; simp only [run] at e; cases e; exact h
  | cons op ops ih =>
    intro s s' h e
    simp only [run] at e
    cases hop : op.apply s with
    | error f => rw [hop] at e; cases e
    | ok s1 =>
      rw [hop] at e
      refine ih s1 s' ?_ e
      cases op with
      | push p => exact Reachable.push p h hop
      | pop =>
        simp only [Op.apply] at hop
        cases hp : ConcurrentPriorityQueue.Pop s with
        | error f => rw [hp] at hop; cases hop
        | ok r =>
          obtain ⟨r1, r2⟩ := r
          rw [hp] at hop
          cases hop
          exact Reachable.pop r1 h hp

theorem isHeap_root_max (s : Store) (h : IsHeap s) :
    ∀ q ∈ s.pq, prio s.mem q ≤ prio s.mem (s.pq.getD 0 0) := by
  intro q hq
  obtain ⟨k, hk, rfl⟩ := List.getElem_of_mem hq
  have := heapOn_root_max (key s) s.pq.length h k hk
  simpa [key, List.getD_eq_getElem?_getD, List.getElem?_eq_getElem hk] using this

theorem getD_zero_mem (l : List Ptr) (h : l ≠ []) : l.getD 0 0 ∈ l := by
  cases l with
  | nil => exact absurd rfl h
  | cons a t => simp

theorem reachable_exampleQueue : Reachable exampleQueue :=
  reachable_run [.push 0, .push 1, .push 2, .push 3, .push 4] _ _
    (Reachable.init exampleMem) rfl


/-- C1: in every state reachable from the empty queue by pushes and pops,
if the storage is non-empty then `ConcurrentPriorityQueue.Pop` returns an
entry that is in the storage and whose priority is greater than or equal to
the priority of every entry in the storage at the moment of the call. -/
theorem pop_returns_maximum (s : Store) (hr : Reachable s) (hne : s.pq ≠ []) :
    ∃ p s', ConcurrentPriorityQueue.Pop s = .ok (some p, s') ∧ p ∈ s.pq ∧
      ∀ q ∈ s.pq, prio s.mem q ≤ prio s.mem p := by
  obtain ⟨s', h1, _, _, _⟩ := cpqPop_cons s hne
  exact ⟨s.pq.getD 0 0, s', h1, getD_zero_mem s.pq hne,
    isHeap_root_max s (reachable_isHeap hr)⟩

theorem pop_returns_maximum_witness :
    Reachable exampleQueue ∧ exampleQueue.pq ≠ [] ∧
      ∃ p s', ConcurrentPriorityQueue.Pop exampleQueue = .ok (some p, s') ∧
        p ∈ exampleQueue.pq ∧
        ∀ q ∈ exampleQueue.pq, prio exampleQueue.mem q ≤ prio exampleQueue.mem p :=
  ⟨reachable_run [.push 0, .push 1, .push 2, .push 3, .push 4] _ _
      (Reachable.init exampleMem) rfl,
    by decide,
    pop_returns_maximum exampleQueue
      (reachable_run [.push 0, .push 1, .push 2, .push 3, .push 4] _ _
        (Reachable.init exampleMem) rfl)
      (by decide)⟩

/-- C3: the max-heap invariant (for every index `k > 0` the priority at `k`
is at most the priority at `(k - 1) / 2`) is preserved by
`ConcurrentPriorityQueue.Push` and by `ConcurrentPriorityQueue.Pop`, both of
which complete; the empty storage satisfies it; hence every state reachable
from the initial queue satisfies it. -/
theorem heap_invariant_preserved :
    (∀ (s : Store) (p : Ptr), IsHeap s →
      ∃ s', ConcurrentPriorityQueue.Push s (some p) = .ok s' ∧ IsHeap s') ∧
    (∀ s : Store, IsHeap s →
      ∃ r s', ConcurrentPriorityQueue.Pop s = .ok (r, s') ∧ IsHeap s') ∧
    (∀ mem : Ptr → Item, IsHeap (cpq mem)) ∧
    (∀ s : Store, Reachable s → IsHeap s) := by
  refine ⟨?_, ?_, isHeap_cpq, fun s h => reachable_isHeap h⟩
  · intro s p h
    obtain ⟨s', h1, _, _, h4⟩ := cpqPush_spec s p
    exact ⟨s', h1, h4 h⟩
  · intro s h
    by_cases hs : s.pq = []
    · exact ⟨none, s, cpqPop_nil s hs, h⟩
    · obtain ⟨s', h1, _, _, h4⟩ := cpqPop_cons s hs
      exact ⟨_, s', h1, h4 h⟩

theorem heap_invariant_preserved_witness :
    Reachable exampleQueue ∧ IsHeap exampleQueue ∧
    (∃ s', ConcurrentPriorityQueue.Push exampleQueue (some 2) = .ok s' ∧ IsHeap s') ∧
    (∃ r s', ConcurrentPriorityQueue.Pop exampleQueue = .ok (r, s') ∧ IsHeap s') ∧
    IsHeap (cpq exampleMem) :=
  ⟨reachable_run [.push 0, .push 1, .push 2, .push 3, .push 4] _ _
      (Reachable.init exampleMem) rfl,
    heap_invariant_preserved.2.2.2 exampleQueue
      (reachable_run [.push 0, .push 1, .push 2, .push 3, .push 4] _ _
        (Reachable.init exampleMem) rfl),
    heap_invariant_preserved.1 exampleQueue 2 (by decide),
    heap_invariant_preserved.2.1 exampleQueue (by decide),
    heap_invariant_preserved.2.2.1 exampleMem⟩

/-- C4: `ConcurrentPriorityQueue.Pop` never fails; it returns nil exactly
when the storage holds zero entries, and then the state is left unchanged;
otherwise the returned entry is one of the stored entries. -/
theorem pop_nil_iff_empty (s : Store) :
    ∃ r s', ConcurrentPriorityQueue.Pop s = .ok (r, s') ∧
      ((r = none ∧ s.pq.length = 0 ∧ s' = s) ∨
       (∃ p, r = some p ∧ 0 < s.pq.length ∧ p ∈ s.pq)) := by
  by_cases hs : s.pq = []
  · exact ⟨none, s, cpqPop_nil s hs, Or.inl ⟨rfl, by simp [hs], rfl⟩⟩
  · obtain ⟨s', h1, _, _, _⟩ := cpqPop_cons s hs
    exact ⟨_, s', h1, Or.inr ⟨_, rfl, List.length_pos.mpr hs, getD_zero_mem s.pq hs⟩⟩

theorem pushAll_spec (L : List Ptr) : ∀ s : Store,
    ∃ s', pushAll s L = .ok s' ∧ s'.pq.Perm (L ++ s.pq) ∧ SameContent s.mem s'.mem ∧
      (IsHeap s → IsHeap s') := by
  induction L with
  | nil => intro s; exact ⟨s, rfl, List.Perm.refl _, SameContent.refl _, id⟩
  | cons p ps ih =>
    intro s
    obtain ⟨s1, h1, hp1, hc1, hh1⟩ := cpqPush_spec s p
    obtain ⟨s2, h2, hp2, hc2, hh2⟩ := ih s1
    refine ⟨s2, ?_, ?_, hc1.trans hc2, fun h => hh2 (hh1 h)⟩
    · simp only [pushAll, h1]; exact h2
    · refine hp2.trans ?_
      refine ((List.Perm.append_left ps hp1).trans ?_)
      simp

theorem popN_drain (n : Nat) : ∀ s : Store, s.pq.length = n → IsHeap s →
    ∃ (ps : List Ptr) (s' : Store), popN n s = .ok (ps.map some, s') ∧ ps.Perm s.pq ∧ SameContent s.mem s'.mem ∧
      s'.pq = [] ∧ List.Sorted (· ≥ ·) (ps.map (prio s.mem)) := by
  induction n with
  | zero =>
    intro s hl _
    exact ⟨[], s, rfl, by rw [List.length_eq_zero.mp hl], SameContent.refl _,
      List.length_eq_zero.mp hl, List.sorted_nil⟩
  | succ n ih =>
    intro s hl hh
    have hne : s.pq ≠ [] := by
      intro h; rw [h] at hl; simp at hl
    obtain ⟨s1, h1, hp1, hc1, hh1⟩ := cpqPop_cons s hne
    have hl1 : s1.pq.length = n := by
      have := hp1.length_eq
      simp only [List.length_cons] at this
      omega
    obtain ⟨ps, s2, h2, hp2, hc2, he2, hs2⟩ := ih s1 hl1 (hh1 hh)
    refine ⟨s.pq.getD 0 0 :: ps, s2, ?_, ?_, hc1.trans hc2, he2, ?_⟩
    · simp only [popN, h1, h2, List.map_cons]
    · exact (List.Perm.cons _ hp2).trans hp1
    · rw [hc1.prio_eq] at hs2
      simp only [List.map_cons, List.sorted_cons]
      refine ⟨?_, hs2⟩
      intro b hb
      obtain ⟨q, hq, rfl⟩ := List.mem_map.mp hb
      have hq1 : q ∈ s1.pq := hp2.subset hq
      have hq2 : q ∈ s.pq := hp1.subset (List.mem_cons_of_mem _ hq1)
      exact isHeap_root_max s hh q hq2

/-- C2: for every list `L` of entries pushed one by one onto the empty
queue, the pushes and the following `len(L)` pops complete, the pops return
entries whose priorities, in order, are the priorities of `L` sorted in
non-increasing order, and the next pop returns nil.  With the priorities
3, 1, 4, 1, 5 the pops yield 5, 4, 3, 1, 1 and then nil. -/
theorem pops_sorted_descending :
    (∀ (mem : Ptr → Item) (L : List Ptr),
      ∃ (s : Store) (ps : List Ptr) (s' : Store), pushAll (cpq mem) L = .ok s ∧ popN L.length s = .ok (ps.map some, s') ∧
        ps.map (prio mem) = (L.map (prio mem)).insertionSort (· ≥ ·) ∧
        ConcurrentPriorityQueue.Pop s' = .ok (none, s')) ∧
    [0, 1, 2, 3, 4].map (prio exampleMem) = [3, 1, 4, 1, 5] ∧
    pushPopPriorities exampleMem [0, 1, 2, 3, 4] 6 =
      .ok [some 5, some 4, some 3, some 1, some 1, none] := by
  refine ⟨?_, by decide, rfl⟩
  intro mem L
  obtain ⟨s, h1, hp1, hc1, hh1⟩ := pushAll_spec L (cpq mem)
  have hl : s.pq.length = L.length := by
    have := hp1.length_eq
    simpa [cpq] using this
  obtain ⟨ps, s', h2, hp2, _, he2, hs2⟩ := popN_drain L.length s hl (hh1 (isHeap_cpq mem))
  refine ⟨s, ps, s', h1, h2, ?_, cpqPop_nil s' he2⟩
  rw [hc1.prio_eq] at hs2
  have hperm : (ps.map (prio mem)).Perm (L.map (prio mem)) := by
    apply List.Perm.map
    refine hp2.trans ?_
    simpa [cpq] using hp1
  exact List.eq_of_perm_of_sorted
    (hperm.trans (List.perm_insertionSort _ _).symm) hs2 (List.sorted_insertionSort _ _)

theorem run_length (ops : List Op) : ∀ s : Store,
    (∀ m, m ≤ ops.length → countPop (ops.take m) ≤ s.pq.length + countPush (ops.take m)) →
    ∃ s', run s ops = .ok s' ∧
      s'.pq.length + countPop ops = s.pq.length + countPush ops := by
  induction ops with
  | nil => intro s _; exact ⟨s, rfl, rfl⟩
  | cons op ops ih =>
    intro s h
    cases op with
    | push p =>
      obtain ⟨s1, h1, hp1, _, _⟩ := cpqPush_spec s p
      have hl1 : s1.pq.length = s.pq.length + 1 := by
        have := hp1.length_eq
        simpa using this
      obtain ⟨s2, h2, hl2⟩ := ih s1 (by
        intro m hm
        have := h (m + 1) (by simp; omega)
        simp only [List.take_succ_cons, countPop, countPush] at this
        omega)
      refine ⟨s2, ?_, ?_⟩
      · simp only [run, Op.apply, h1]; exact h2
      · simp only [countPop, countPush]; omega
    | pop =>
      have hpos : 1 ≤ s.pq.length := by
        have := h 1 (by simp)
        simpa [countPop, countPush] using this
      have hne : s.pq ≠ [] := by
        intro h0; rw [h0] at hpos; simp at hpos
      obtain ⟨s1, h1, hp1, _, _⟩ := cpqPop_cons s hne
      have hl1 : s1.pq.length + 1 = s.pq.length := by
        have := hp1.length_eq
        simpa using this
      obtain ⟨s2, h2, hl2⟩ := ih s1 (by
        intro m hm
        have := h (m + 1) (by simp; omega)
        simp only [List.take_succ_cons, countPop, countPush] at this
        omega)
      refine ⟨s2, ?_, ?_⟩
      · simp only [run, Op.apply, h1]; exact h2
      · simp only [countPop, countPush]; omega

/-- C5 (as stated, refuted): the sequence Pop, Push has one push and one
pop, yet `Len` is 1 afterwards, not `1 - 1 = 0`: the pop on the empty queue
returns nil and removes nothing. -/
theorem len_after_pop_then_push :
    countPush [Op.pop, Op.push 0] = 1 ∧ countPop [Op.pop, Op.push 0] = 1 ∧
      lenAfter exampleMem [Op.pop, Op.push 0] = .ok 1 ∧
      lenAfter exampleMem [Op.pop, Op.push 0] ≠
        .ok ((countPush [Op.pop, Op.push 0] : Int) - (countPop [Op.pop, Op.push 0] : Int)) := by
  refine ⟨rfl, rfl, rfl, ?_⟩
  intro h
  have h2 : lenAfter exampleMem [Op.pop, Op.push 0] = .ok 1 := rfl
  rw [h2] at h
  injection h with h
  revert h
  decide

/-- C5 (amended): for every sequence of `k` pushes and `j` pops on the
initially empty queue in which every prefix holds at least as many pushes as
pops (no pop is made on an empty queue), all calls complete and `Len` equals
`k - j` afterwards. -/
theorem len_after_ops (mem : Ptr → Item) (ops : List Op)
    (h : ∀ m, m ≤ ops.length → countPop (ops.take m) ≤ countPush (ops.take m)) :
    countPop ops ≤ countPush ops ∧
      lenAfter mem ops = .ok ((countPush ops : Int) - (countPop ops : Int)) := by
  obtain ⟨s', h1, h2⟩ := run_length ops (cpq mem) (by
    intro m hm
    have := h m hm
    omega)
  have hle : countPop ops ≤ countPush ops := by
    have := h ops.length (le_refl _)
    simpa using this
  refine ⟨hle, ?_⟩
  simp only [lenAfter, h1, PriorityQueue.Len]
  have : (cpq mem).pq.length = 0 := rfl
  congr 1
  omega

theorem len_after_ops_witness :
    (∀ m, m ≤ [Op.push 0, Op.push 1, Op.pop, Op.push 2, Op.pop].length →
      countPop ([Op.push 0, Op.push 1, Op.pop, Op.push 2, Op.pop].take m) ≤
        countPush ([Op.push 0, Op.push 1, Op.pop, Op.push 2, Op.pop].take m)) ∧
    lenAfter exampleMem [Op.push 0, Op.push 1, Op.pop, Op.push 2, Op.pop] = .ok 1 :=
  ⟨by decide,
    (len_after_ops exampleMem [Op.push 0, Op.push 1, Op.pop, Op.push 2, Op.pop]
      (by decide)).2⟩

theorem up_zero (fuel : Nat) (s : Store) : heap.up (fuel + 1) s 0 = .ok s := by
  simp only [heap.up, tdiv_parent_zero, if_true]

theorem up_succ (fuel : Nat) (s : Store) (j : Nat) (hj0 : 0 < j) (hj : j < s.pq.length) :
    heap.up (fuel + 1) s (j : Int) =
      if key s j > key s ((j - 1) / 2) then
        heap.up fuel (swapped s ((j - 1) / 2) j) (((j - 1) / 2 : Nat) : Int)
      else .ok s := by
  have hi : (j - 1) / 2 < s.pq.length := by omega
  have hne : ¬ ((((j - 1) / 2 : Nat) : Int) = (j : Int)) := by omega
  by_cases hlt : key s j > key s ((j - 1) / 2)
  · simp only [heap.up, tdiv_parent j hj0, hne, if_false, Less_natCast s j _ hj hi,
      Swap_natCast s _ j hi hj, bind, Except.bind, hlt, decide_True, Bool.not_true, if_true,
      swapped]
    rfl
  · simp only [heap.up, tdiv_parent j hj0, hne, if_false, Less_natCast s j _ hj hi,
      bind, Except.bind, hlt, decide_False, Bool.not_false, if_true]

/-- When the key at `j` is strictly larger than every other key, `heap.up`
carries the entry at `j` to the root. -/
theorem up_root_of_strict_max (fuel : Nat) : ∀ (s : Store) (j : Nat), j < s.pq.length →
    j < fuel → (∀ k, k < s.pq.length → k ≠ j → key s k < key s j) →
    ∃ s', heap.up fuel s (j : Int) = .ok s' ∧ s'.pq.getD 0 0 = s.pq.getD j 0 := by
  induction fuel with
  | zero => intro s j _ h; omega
  | succ fuel ih =>
    intro s j hj hf hmax
    by_cases hj0 : j = 0
    · subst hj0
      exact ⟨s, up_zero fuel s, rfl⟩
    · have hj0' : 0 < j := by omega
      have hi : (j - 1) / 2 < s.pq.length := by omega
      have hlt : key s j > key s ((j - 1) / 2) := hmax _ hi (by omega)
      rw [up_succ fuel s j hj0' hj, if_pos hlt]
      obtain ⟨s', h1, h2⟩ := ih (swapped s ((j - 1) / 2) j) ((j - 1) / 2)
        (by simp only [swapped, swapL_length]; exact hi) (by omega) (by
          intro k hk hne
          simp only [swapped, swapL_length] at hk
          rw [key_swapped s _ _ hi hj]
          have e1 : swapF (key s) ((j - 1) / 2) j ((j - 1) / 2) = key s j := by
            unfold swapF
            rw [if_neg (by omega : ¬ (j - 1) / 2 = j), if_pos rfl]
          rw [e1]
          unfold swapF
          by_cases hkj : k = j
          · rw [if_pos hkj]; exact hlt
          · rw [if_neg hkj, if_neg hne]; exact hmax k hk hkj)
      refine ⟨s', h1, ?_⟩
      rw [h2]
      simp only [swapped]
      rw [swapL_getD _ _ _ _ hi hj]
      rw [if_neg (by omega : ¬ (j - 1) / 2 = j), if_pos rfl]

/-- C6: for every collection `L` of entries and every order `L'` in which
their pushes are serialised onto the empty queue, the pushes and the
following `len(L)` pops complete, every pop returns a non-nil entry, the
popped entries are the pushed ones (as pointers, and as a multiset of value
and priority pairs), and the queue is empty afterwards. -/
theorem no_loss_no_duplication (mem : Ptr → Item) (L L' : List Ptr) (hperm : L'.Perm L) :
    ∃ (s : Store) (ps : List Ptr) (s' : Store),
      pushAll (cpq mem) L' = .ok s ∧ popN L.length s = .ok (ps.map some, s') ∧
      ps.length = L.length ∧ ps.Perm L ∧
      (↑(ps.map (fun p => (val s'.mem p, prio s'.mem p))) : Multiset (String × Int)) =
        ↑(L.map (fun p => (val mem p, prio mem p))) ∧
      s'.pq = [] := by
  obtain ⟨s, h1, hp1, hc1, hh1⟩ := pushAll_spec L' (cpq mem)
  have hp1' : s.pq.Perm L := by
    have : s.pq.Perm L' := by simpa [cpq] using hp1
    exact this.trans hperm
  obtain ⟨ps, s', h2, hp2, hc2, he2, _⟩ :=
    popN_drain L.length s hp1'.length_eq (hh1 (isHeap_cpq mem))
  have hpL : ps.Perm L := hp2.trans hp1'
  refine ⟨s, ps, s', h1, h2, hpL.length_eq, hpL, ?_, he2⟩
  have hc : SameContent mem s'.mem := hc1.trans hc2
  have hf : (fun p => (val s'.mem p, prio s'.mem p)) = fun p => (val mem p, prio mem p) := by
    funext p
    simp only [val, prio, (hc p).1, (hc p).2]
  rw [hf]
  exact Multiset.coe_eq_coe.mpr (hpL.map _)

theorem no_loss_no_duplication_witness :
    [4, 2, 0, 3, 1].Perm [0, 1, 2, 3, 4] ∧
    ∃ (s : Store) (ps : List Ptr) (s' : Store),
      pushAll (cpq exampleMem) [4, 2, 0, 3, 1] = .ok s ∧
      popN [0, 1, 2, 3, 4].length s = .ok (ps.map some, s') ∧
      ps.length = [0, 1, 2, 3, 4].length ∧ ps.Perm [0, 1, 2, 3, 4] ∧
      (↑(ps.map (fun p => (val s'.mem p, prio s'.mem p))) : Multiset (String × Int)) =
        ↑([0, 1, 2, 3, 4].map (fun p => (val exampleMem p, prio exampleMem p))) ∧
      s'.pq = [] :=
  ⟨by decide, no_loss_no_duplication exampleMem [0, 1, 2, 3, 4] [4, 2, 0, 3, 1] (by decide)⟩

/-- C7 (as stated, refuted): on the queue holding the entry of priority 5,
pushing the entry of priority 1 and popping at once returns the entry of
priority 5, not the entry just pushed. -/
theorem push_then_pop_returns_older :
    pushThenPop (stateAfter exampleMem [Op.push 4]) 1 = .ok (some 4) ∧
      prio exampleMem 4 = 5 ∧ prio exampleMem 1 = 1 ∧
      pushThenPop (stateAfter exampleMem [Op.push 4]) 1 ≠ .ok (some 1) := by
  refine ⟨rfl, rfl, rfl, ?_⟩
  intro h
  have h2 : pushThenPop (stateAfter exampleMem [Op.push 4]) 1 = .ok (some 4) := rfl
  rw [h2] at h
  injection h with h
  injection h with h
  revert h
  decide

/-- C7 (amended): for every queue state and every entry `e` whose priority
is strictly greater than the priority of every stored entry (in particular
for the empty queue), `Push(e)` followed at once by `Pop()` returns exactly
the entry `e` just pushed. -/
theorem push_then_pop_returns_pushed (s : Store) (e : Ptr)
    (hmax : ∀ q ∈ s.pq, prio s.mem q < prio s.mem e) :
    pushThenPop s e = .ok (some e) := by
  have hlen : (s.pq ++ [e]).length = s.pq.length + 1 := by simp
  have hc := sameContent_setIndex s.mem e (PriorityQueue.Len s)
  obtain ⟨s1, h1, hroot⟩ :=
    up_root_of_strict_max ((s.pq ++ [e]).length + 1)
      { mem := setIndex s.mem e (PriorityQueue.Len s), pq := s.pq ++ [e] } s.pq.length
      (by simp) (by simp; omega) (by
        intro k hk hne
        have hk' : k < s.pq.length := by
          simp only [List.length_append, List.length_singleton] at hk
          omega
        simp only [key, hc.prio_eq]
        rw [List.getD_append _ _ _ _ hk', List.getD_append_right _ _ _ _ (le_refl _)]
        simp only [Nat.sub_self, List.getD_cons_zero]
        apply hmax
        rw [List.getD_eq_getElem?_getD, List.getElem?_eq_getElem hk']
        exact List.getElem_mem _)
  have hroot' : s1.pq.getD 0 0 = e := by
    rw [hroot]
    simp only []
    rw [List.getD_append_right _ _ _ _ (le_refl _)]
    simp
  obtain ⟨s1', h1', hp1, _, _⟩ := cpqPush_spec s e
  have hpush : ConcurrentPriorityQueue.Push s (some e) = .ok s1 := by
    have e0 : PriorityQueue.Len
        { mem := setIndex s.mem e (PriorityQueue.Len s), pq := s.pq ++ [e] } - 1
        = (s.pq.length : Int) := by
      simp [PriorityQueue.Len]
    simp only [ConcurrentPriorityQueue.Push, heap.Push, PriorityQueue.Push, bind, Except.bind, e0]
    exact h1
  rw [hpush] at h1'
  cases h1'
  have hne : s1.pq ≠ [] := by
    intro h0
    have := hp1.length_eq
    rw [h0] at this
    simp at this
  obtain ⟨s2, h2, _, _, _⟩ := cpqPop_cons s1 hne
  simp only [pushThenPop, hpush, h2, hroot']

theorem push_then_pop_returns_pushed_witness :
    (∀ q ∈ (stateAfter exampleMem [Op.push 0, Op.push 1]).pq,
      prio (stateAfter exampleMem [Op.push 0, Op.push 1]).mem q <
        prio (stateAfter exampleMem [Op.push 0, Op.push 1]).mem 2) ∧
    pushThenPop (stateAfter exampleMem [Op.push 0, Op.push 1]) 2 = .ok (some 2) :=
  ⟨by decide,
    push_then_pop_returns_pushed (stateAfter exampleMem [Op.push 0, Op.push 1]) 2 (by decide)⟩

/-- C8: on every non-empty queue state `ConcurrentPriorityQueue.Pop` returns
an entry `e` of the storage and leaves as storage the multiset of entries
before the call with exactly one occurrence of `e` removed; after
`Push(e)` the storage is the previous multiset plus exactly `e`; and neither
call changes the value or the priority of any entry. -/
theorem entries_frame (s : Store) :
    (s.pq ≠ [] →
      ∃ (e : Ptr) (s' : Store), ConcurrentPriorityQueue.Pop s = .ok (some e, s') ∧
        e ∈ s.pq ∧ (↑s'.pq : Multiset Ptr) = (↑s.pq : Multiset Ptr).erase e ∧
        ∀ q, val s'.mem q = val s.mem q ∧ prio s'.mem q = prio s.mem q) ∧
    (∀ e : Ptr,
      ∃ s' : Store, ConcurrentPriorityQueue.Push s (some e) = .ok s' ∧
        (↑s'.pq : Multiset Ptr) = e ::ₘ (↑s.pq : Multiset Ptr) ∧
        ∀ q, val s'.mem q = val s.mem q ∧ prio s'.mem q = prio s.mem q) := by
  constructor
  · intro hne
    obtain ⟨s', h1, hp, hc, _⟩ := cpqPop_cons s hne
    refine ⟨_, s', h1, getD_zero_mem s.pq hne, ?_, hc⟩
    have : (↑s.pq : Multiset Ptr) = s.pq.getD 0 0 ::ₘ (↑s'.pq : Multiset Ptr) := by
      rw [Multiset.cons_coe]
      exact Multiset.coe_eq_coe.mpr hp.symm
    rw [this, Multiset.erase_cons_head]
  · intro e
    obtain ⟨s', h1, hp, hc, _⟩ := cpqPush_spec s e
    refine ⟨s', h1, ?_, hc⟩
    rw [Multiset.cons_coe]
    exact Multiset.coe_eq_coe.mpr hp

theorem entries_frame_witness :
    exampleQueue.pq ≠ [] ∧
    ∃ (e : Ptr) (s' : Store), ConcurrentPriorityQueue.Pop exampleQueue = .ok (some e, s') ∧
      e ∈ exampleQueue.pq ∧
      (↑s'.pq : Multiset Ptr) = (↑exampleQueue.pq : Multiset Ptr).erase e ∧
      ∀ q, val s'.mem q = val exampleQueue.mem q ∧ prio s'.mem q = prio exampleQueue.mem q :=
  ⟨by decide, (entries_frame exampleQueue).1 (by decide)⟩

/-- C9: in every state reachable from the empty queue, and for every
non-nil entry, `ConcurrentPriorityQueue.Push` and
`ConcurrentPriorityQueue.Pop` terminate and complete with no out-of-range
slice access (every access of the model is bounds-checked, and the loops stay
within their iteration budget); `Push` ends in a valid heap, and `Pop` ends
in a valid heap, returning nil with the state unchanged exactly when the
storage is empty. -/
theorem operations_complete (s : Store) (hr : Reachable s) (e : Ptr) :
    (∃ s' : Store, ConcurrentPriorityQueue.Push s (some e) = .ok s' ∧ IsHeap s') ∧
    (∃ (r : Option Ptr) (s' : Store), ConcurrentPriorityQueue.Pop s = .ok (r, s') ∧
      IsHeap s' ∧
      ((r = none ∧ s.pq = [] ∧ s' = s) ∨ (∃ p, r = some p ∧ s.pq ≠ []))) := by
  have hh := reachable_isHeap hr
  constructor
  · obtain ⟨s', h1, _, _, h4⟩ := cpqPush_spec s e
    exact ⟨s', h1, h4 hh⟩
  · by_cases hs : s.pq = []
    · exact ⟨none, s, cpqPop_nil s hs, hh, Or.inl ⟨rfl, hs, rfl⟩⟩
    · obtain ⟨s', h1, _, _, h4⟩ := cpqPop_cons s hs
      exact ⟨_, s', h1, h4 hh, Or.inr ⟨_, rfl, hs⟩⟩

theorem operations_complete_witness :
    Reachable exampleQueue ∧
    (∃ s' : Store, ConcurrentPriorityQueue.Push exampleQueue (some 2) = .ok s' ∧ IsHeap s') ∧
    (∃ (r : Option Ptr) (s' : Store), ConcurrentPriorityQueue.Pop exampleQueue = .ok (r, s') ∧
      IsHeap s' ∧
      ((r = none ∧ exampleQueue.pq = [] ∧ s' = exampleQueue) ∨
        (∃ p, r = some p ∧ exampleQueue.pq ≠ []))) :=
  ⟨reachable_run [.push 0, .push 1, .push 2, .push 3, .push 4] _ _
      (Reachable.init exampleMem) rfl,
    operations_complete exampleQueue
      (reachable_run [.push 0, .push 1, .push 2, .push 3, .push 4] _ _
        (Reachable.init exampleMem) rfl) 2⟩

/-- C10 (as stated, refuted): on the empty storage the heap-level extraction
reports no distinguished empty-queue outcome: `PriorityQueue.Pop` reads
`old[n-1]` at index `-1` and `heap.Pop` calls `Swap(0, -1)`, and both end in
the index-out-of-range panic. -/
theorem heap_extract_on_empty_panics :
    PriorityQueue.Len (cpq exampleMem) - 1 = -1 ∧
      idx (cpq exampleMem).pq (-1) = .error .indexOutOfRange ∧
      PriorityQueue.Pop (cpq exampleMem) = .error .indexOutOfRange ∧
      PriorityQueue.Swap (cpq exampleMem) 0 (-1) = .error .indexOutOfRange ∧
      heap.Pop (cpq exampleMem) = .error .indexOutOfRange :=
  ⟨by decide, rfl, rfl, rfl, rfl⟩

/-- C10 (amended): the heap-level extraction has no empty-queue outcome of
its own: on a storage with zero entries both `PriorityQueue.Pop` and
`heap.Pop` finish in the index-out-of-range panic, and
`ConcurrentPriorityQueue.Pop` tests `Len() == 0` first and returns nil with
the state unchanged, without calling them. -/
theorem heap_extract_on_empty (s : Store) (h : s.pq = []) :
    PriorityQueue.Pop s = .error .indexOutOfRange ∧
      heap.Pop s = .error .indexOutOfRange ∧
      ConcurrentPriorityQueue.Pop s = .ok (none, s) := by
  refine ⟨?_, ?_, cpqPop_nil s h⟩
  · simp only [PriorityQueue.Pop, h, List.length_nil, Nat.cast_zero]
    rfl
  · simp only [heap.Pop, PriorityQueue.Len, PriorityQueue.Swap, h, List.length_nil,
      Nat.cast_zero]
    rfl

theorem heap_extract_on_empty_witness :
    (cpq exampleMem).pq = [] ∧
    PriorityQueue.Pop (cpq exampleMem) = .error .indexOutOfRange ∧
      heap.Pop (cpq exampleMem) = .error .indexOutOfRange ∧
      ConcurrentPriorityQueue.Pop (cpq exampleMem) = .ok (none, cpq exampleMem) :=
  ⟨rfl, heap_extract_on_empty (cpq exampleMem) rfl⟩

/-- When the key at `j` is at most the key of the root, `heap.up` from `j`
leaves the root entry in place. -/
theorem up_root_of_le_root (fuel : Nat) : ∀ (s : Store) (j : Nat), j < s.pq.length →
    j < fuel → key s j ≤ key s 0 →
    ∃ s', heap.up fuel s (j : Int) = .ok s' ∧ s'.pq.getD 0 0 = s.pq.getD 0 0 := by
  induction fuel with
  | zero => intro s j _ h; omega
  | succ fuel ih =>
    intro s j hj hf hle
    by_cases hj0 : j = 0
    · subst hj0
      exact ⟨s, up_zero fuel s, rfl⟩
    · have hj0' : 0 < j := by omega
      have hi : (j - 1) / 2 < s.pq.length := by omega
      rw [up_succ fuel s j hj0' hj]
      by_cases hlt : key s j > key s ((j - 1) / 2)
      · rw [if_pos hlt]
        have hi0 : (j - 1) / 2 ≠ 0 := by
          intro h0
          rw [h0] at hlt
          omega
        have hk0 : key (swapped s ((j - 1) / 2) j) 0 = key s 0 := by
          rw [key_swapped s _ _ hi hj]
          unfold swapF
          rw [if_neg (by omega), if_neg (by omega)]
        have hki : key (swapped s ((j - 1) / 2) j) ((j - 1) / 2) = key s j := by
          rw [key_swapped s _ _ hi hj]
          unfold swapF
          rw [if_neg (by omega), if_pos rfl]
        obtain ⟨s', h1, h2⟩ := ih (swapped s ((j - 1) / 2) j) ((j - 1) / 2)
          (by simp only [swapped, swapL_length]; exact hi) (by omega)
          (by rw [hk0, hki]; exact hle)
        refine ⟨s', h1, ?_⟩
        rw [h2]
        simp only [swapped]
        rw [swapL_getD _ _ _ _ hi hj, if_neg (by omega), if_neg (by omega)]
      · rw [if_neg hlt]
        exact ⟨s, rfl, rfl⟩

theorem heapPush_unfold (s : Store) (e : Ptr) :
    ConcurrentPriorityQueue.Push s (some e) =
      heap.up ((s.pq ++ [e]).length + 1)
        { mem := setIndex s.mem e (PriorityQueue.Len s), pq := s.pq ++ [e] }
        (s.pq.length : Int) := by
  have e0 : PriorityQueue.Len
      { mem := setIndex s.mem e (PriorityQueue.Len s), pq := s.pq ++ [e] } - 1
      = (s.pq.length : Int) := by
    simp [PriorityQueue.Len]
  simp only [ConcurrentPriorityQueue.Push, heap.Push, PriorityQueue.Push, bind, Except.bind, e0]

/-- C17: sift-up swaps only while the parent's priority is strictly smaller.
On every valid non-empty heap, pushing an entry whose priority is at most
the priority of the current root leaves the same entry at the root (a tie
with the maximum does not displace it); and pushing an entry whose priority
is strictly greater than every stored priority makes it the root. -/
theorem push_root (s : Store) (e : Ptr) :
    (s.pq ≠ [] → IsHeap s → prio s.mem e ≤ prio s.mem (s.pq.getD 0 0) →
      ∃ s', ConcurrentPriorityQueue.Push s (some e) = .ok s' ∧
        s'.pq.getD 0 0 = s.pq.getD 0 0) ∧
    ((∀ q ∈ s.pq, prio s.mem q < prio s.mem e) →
      ∃ s', ConcurrentPriorityQueue.Push s (some e) = .ok s' ∧ s'.pq.getD 0 0 = e) := by
  have hc := sameContent_setIndex s.mem e (PriorityQueue.Len s)
  constructor
  · intro hne _ hle
    have hpos : 0 < s.pq.length := List.length_pos.mpr hne
    obtain ⟨s', h1, h2⟩ := up_root_of_le_root ((s.pq ++ [e]).length + 1)
      { mem := setIndex s.mem e (PriorityQueue.Len s), pq := s.pq ++ [e] } s.pq.length
      (by simp) (by simp; omega) (by
        simp only [key, hc.prio_eq]
        rw [List.getD_append _ _ _ _ hpos, List.getD_append_right _ _ _ _ (le_refl _)]
        simpa using hle)
    refine ⟨s', ?_, ?_⟩
    · rw [heapPush_unfold]; exact h1
    · rw [h2]
      simp only []
      rw [List.getD_append _ _ _ _ hpos]
  · intro hmax
    obtain ⟨s', h1, h2⟩ := up_root_of_strict_max ((s.pq ++ [e]).length + 1)
      { mem := setIndex s.mem e (PriorityQueue.Len s), pq := s.pq ++ [e] } s.pq.length
      (by simp) (by simp; omega) (by
        intro k hk hne
        have hk' : k < s.pq.length := by
          simp only [List.length_append, List.length_singleton] at hk
          omega
        simp only [key, hc.prio_eq]
        rw [List.getD_append _ _ _ _ hk', List.getD_append_right _ _ _ _ (le_refl _)]
        simp only [Nat.sub_self, List.getD_cons_zero]
        apply hmax
        rw [List.getD_eq_getElem?_getD, List.getElem?_eq_getElem hk']
        exact List.getElem_mem _)
    refine ⟨s', ?_, ?_⟩
    · rw [heapPush_unfold]; exact h1
    · rw [h2]
      simp only []
      rw [List.getD_append_right _ _ _ _ (le_refl _)]
      simp

theorem push_root_witness :
    ((stateAfter exampleMem [Op.push 1]).pq ≠ [] ∧ IsHeap (stateAfter exampleMem [Op.push 1]) ∧
      prio (stateAfter exampleMem [Op.push 1]).mem 3 ≤
        prio (stateAfter exampleMem [Op.push 1]).mem
          ((stateAfter exampleMem [Op.push 1]).pq.getD 0 0) ∧
      ∃ s', ConcurrentPriorityQueue.Push (stateAfter exampleMem [Op.push 1]) (some 3) = .ok s' ∧
        s'.pq.getD 0 0 = (stateAfter exampleMem [Op.push 1]).pq.getD 0 0) ∧
    ((∀ q ∈ (stateAfter exampleMem [Op.push 0, Op.push 1]).pq,
        prio (stateAfter exampleMem [Op.push 0, Op.push 1]).mem q <
          prio (stateAfter exampleMem [Op.push 0, Op.push 1]).mem 2) ∧
      ∃ s', ConcurrentPriorityQueue.Push (stateAfter exampleMem [Op.push 0, Op.push 1])
          (some 2) = .ok s' ∧ s'.pq.getD 0 0 = 2) :=
  ⟨⟨by decide, by decide, by decide,
      (push_root (stateAfter exampleMem [Op.push 1]) 3).1 (by decide) (by decide) (by decide)⟩,
    ⟨by decide,
      (push_root (stateAfter exampleMem [Op.push 0, Op.push 1]) 2).2 (by decide)⟩⟩

/-- C18: the queue is not stable.  With three entries `a`, `b`, `c` of
priority 1 pushed in this order onto the empty queue, three pops return
`a`, `c`, `b`: the entries `b` and `c` have equal priority and leave in the
opposite order to the order in which they were pushed. -/
theorem pops_not_stable :
    [0, 1, 2].map (val tieMem) = ["a", "b", "c"] ∧
    [0, 1, 2].map (prio tieMem) = [1, 1, 1] ∧
    pushPopResults tieMem [0, 1, 2] 3 = .ok [some 0, some 2, some 1] ∧
    [0, 2, 1].map (val tieMem) = ["a", "c", "b"] :=
  ⟨by decide, by decide, rfl, by decide⟩

theorem nodup_getD_inj (l : List Ptr) (h : l.Nodup) (i j : Nat) (hi : i < l.length)
    (hj : j < l.length) (e : l.getD i 0 = l.getD j 0) : i = j := by
  simp only [List.getD_eq_getElem?_getD, List.getElem?_eq_getElem hi,
    List.getElem?_eq_getElem hj, Option.getD_some] at e
  exact (List.Nodup.getElem_inj_iff h).mp e

theorem setIndex_same (m : Ptr → Item) (p : Ptr) (i : Int) : (setIndex m p i p).index = i := by
  simp [setIndex]

theorem setIndex_other (m : Ptr → Item) (p q : Ptr) (i : Int) (h : q ≠ p) :
    setIndex m p i q = m q := by
  simp [setIndex, h]

theorem indexInv_swapped (s : Store) (i j : Nat) (hi : i < s.pq.length)
    (hj : j < s.pq.length) (h : IndexInv s) : IndexInv (swapped s i j) := by
  obtain ⟨hnd, hidx⟩ := h
  constructor
  · exact (swapL_perm s.pq i j hi hj).nodup_iff.mpr hnd
  · intro k hk
    simp only [swapped, swapL_length] at hk ⊢
    rw [swapL_getD _ _ _ _ hi hj]
    by_cases hkj : k = j
    · subst hkj
      rw [if_pos rfl, setIndex_same]
    · rw [if_neg hkj]
      by_cases hki : k = i
      · subst hki
        rw [if_pos rfl]
        have hne : s.pq.getD j 0 ≠ s.pq.getD k 0 := fun e =>
          hkj (nodup_getD_inj s.pq hnd j k hj hi e).symm
        rw [setIndex_other _ _ _ _ hne, setIndex_same]
      · rw [if_neg hki]
        have hne1 : s.pq.getD k 0 ≠ s.pq.getD i 0 := fun e =>
          hki (nodup_getD_inj s.pq hnd k i hk hi e)
        have hne2 : s.pq.getD k 0 ≠ s.pq.getD j 0 := fun e =>
          hkj (nodup_getD_inj s.pq hnd k j hk hj e)
        rw [setIndex_other _ _ _ _ hne1, setIndex_other _ _ _ _ hne2]
        exact hidx k hk

theorem up_indexInv (fuel : Nat) : ∀ (s : Store) (j : Nat), j < s.pq.length → j < fuel →
    IndexInv s → ∃ s', heap.up fuel s (j : Int) = .ok s' ∧ IndexInv s' ∧ s'.pq.Perm s.pq := by
  induction fuel with
  | zero => intro s j _ h; omega
  | succ fuel ih =>
    intro s j hj hf hinv
    by_cases hj0 : j = 0
    · subst hj0
      exact ⟨s, up_zero fuel s, hinv, List.Perm.refl _⟩
    · have hj0' : 0 < j := by omega
      have hi : (j - 1) / 2 < s.pq.length := by omega
      rw [up_succ fuel s j hj0' hj]
      by_cases hlt : key s j > key s ((j - 1) / 2)
      · rw [if_pos hlt]
        obtain ⟨s', h1, h2, h3⟩ := ih (swapped s ((j - 1) / 2) j) ((j - 1) / 2)
          (by simp only [swapped, swapL_length]; exact hi) (by omega)
          (indexInv_swapped s _ _ hi hj hinv)
        exact ⟨s', h1, h2, h3.trans (swapL_perm _ _ _ hi hj)⟩
      · rw [if_neg hlt]
        exact ⟨s, rfl, hinv, List.Perm.refl _⟩

theorem downLoop_indexInv (fuel : Nat) : ∀ (s : Store) (i n : Nat), n ≤ s.pq.length →
    n - i < fuel → IndexInv s →
    ∃ i' s', heap.downLoop fuel s (i : Int) (n : Int) = .ok (i', s') ∧ IndexInv s' ∧
      s'.pq.length = s.pq.length ∧ (∀ k, n ≤ k → s'.pq.getD k 0 = s.pq.getD k 0) ∧
      s'.pq.Perm s.pq := by
  induction fuel with
  | zero => intro s i n _ h; omega
  | succ fuel ih =>
    intro s i n hn hf hinv
    by_cases hstop : n ≤ 2 * i + 1
    · exact ⟨_, s, downLoop_stop fuel s i n hstop, hinv, rfl, fun _ _ => rfl, List.Perm.refl _⟩
    · have hlt : 2 * i + 1 < n := by omega
      obtain ⟨hjn, hj0, hpj, _⟩ := pickChild_spec s i n hlt
      have hi : i < s.pq.length := by omega
      have hj : pickChild s i n < s.pq.length := by omega
      rw [downLoop_step fuel s i n hn hlt]
      by_cases hk : key s (pickChild s i n) > key s i
      · rw [if_pos hk]
        obtain ⟨i', s', h1, h2, h3, h4, h5⟩ :=
          ih (swapped s i (pickChild s i n)) (pickChild s i n) n
            (by simp only [swapped, swapL_length]; exact hn) (by omega)
            (indexInv_swapped s _ _ hi hj hinv)
        refine ⟨i', s', h1, h2, ?_, ?_, h5.trans (swapL_perm _ _ _ hi hj)⟩
        · rw [h3]; simp only [swapped, swapL_length]
        · intro k hk'
          rw [h4 k hk']
          simp only [swapped]
          rw [swapL_getD _ _ _ _ hi hj, if_neg (by omega), if_neg (by omega)]
      · rw [if_neg hk]
        exact ⟨_, s, rfl, hinv, rfl, fun _ _ => rfl, List.Perm.refl _⟩

theorem cpqPush_indexInv (s : Store) (e : Ptr) (he : e ∉ s.pq) (h : IndexInv s) :
    ∃ s', ConcurrentPriorityQueue.Push s (some e) = .ok s' ∧ IndexInv s' ∧
      s'.pq.Perm (e :: s.pq) := by
  obtain ⟨hnd, hidx⟩ := h
  have hinv1 : IndexInv { mem := setIndex s.mem e (PriorityQueue.Len s), pq := s.pq ++ [e] } := by
    constructor
    · exact List.Nodup.append hnd (List.nodup_singleton e) (by simpa using he)
    · intro k hk
      simp only [List.length_append, List.length_singleton] at hk
      show (setIndex s.mem e (PriorityQueue.Len s) ((s.pq ++ [e]).getD k 0)).index = (k : Int)
      by_cases hkn : k < s.pq.length
      · rw [List.getD_append _ _ _ _ hkn]
        have hne : s.pq.getD k 0 ≠ e := by
          intro e0
          apply he
          rw [← e0, List.getD_eq_getElem?_getD, List.getElem?_eq_getElem hkn]
          exact List.getElem_mem _
        rw [setIndex_other _ _ _ _ hne]
        exact hidx k hkn
      · have hk' : k = s.pq.length := by omega
        subst hk'
        rw [List.getD_append_right _ _ _ _ (le_refl _)]
        simp only [Nat.sub_self, List.getD_cons_zero]
        rw [setIndex_same]
        rfl
  obtain ⟨s', h1, h2, h3⟩ := up_indexInv ((s.pq ++ [e]).length + 1)
    { mem := setIndex s.mem e (PriorityQueue.Len s), pq := s.pq ++ [e] } s.pq.length
    (by simp) (by simp; omega) hinv1
  refine ⟨s', ?_, h2, ?_⟩
  · rw [heapPush_unfold]; exact h1
  · exact h3.trans (List.perm_append_singleton e s.pq)

theorem cpqPop_index (s : Store) (hne : s.pq ≠ []) :
    ∃ s', ConcurrentPriorityQueue.Pop s = .ok (some (s.pq.getD 0 0), s') ∧
      (s'.mem (s.pq.getD 0 0)).index = -1 ∧ (∀ q ∈ s'.pq, q ∈ s.pq) ∧
      (IndexInv s → IndexInv s') := by
  have hpos : 0 < s.pq.length := List.length_pos.mpr hne
  obtain ⟨n, hlen⟩ : ∃ n, s.pq.length = n + 1 := ⟨s.pq.length - 1, by omega⟩
  have h0 : 0 < s.pq.length := hpos
  have hn : n < s.pq.length := by omega
  have e0 : PriorityQueue.Len s - 1 = (n : Int) := by
    simp only [PriorityQueue.Len]; omega
  have hswap : PriorityQueue.Swap s 0 (n : Int) = .ok (swapped s 0 n) :=
    Swap_natCast s 0 n h0 hn
  have hl1 : (swapped s 0 n).pq.length = n + 1 := by
    simp only [swapped, swapL_length]; exact hlen
  obtain ⟨i', s2, hs2, hperm, _, hframe, _⟩ :=
    downLoop_spec ((swapped s 0 n).pq.length + 1) (swapped s 0 n) 0 n (by omega) (by omega)
  have hs2' : heap.downLoop ((swapped s 0 n).pq.length + 1) (swapped s 0 n) 0 (n : Int)
      = .ok (i', s2) := hs2
  have hl2 : s2.pq.length = n + 1 := by rw [hperm.length_eq]; exact hl1
  have hlast : s2.pq.getD n 0 = s.pq.getD 0 0 := by
    rw [hframe n (le_refl _)]
    simp only [swapped]
    rw [swapL_getD _ _ _ _ h0 hn, if_pos rfl]
  have hne0 : ¬ PriorityQueue.Len s = 0 := by
    simp only [PriorityQueue.Len]; omega
  refine ⟨{ mem := setIndex s2.mem (s2.pq.getD n 0) (-1), pq := s2.pq.take n }, ?_, ?_, ?_, ?_⟩
  · simp only [ConcurrentPriorityQueue.Pop, hne0, if_false, heap.Pop, e0, hswap, heap.down, hs2',
      bind, Except.bind, pure, Except.pure, pqPop_spec s2 n hl2, hlast]
  · rw [hlast]; exact setIndex_same _ _ _
  · intro q hq
    have h1 : q ∈ s2.pq := List.mem_of_mem_take hq
    exact (swapL_perm _ _ _ h0 hn).subset (hperm.subset h1)
  · intro hinv
    obtain ⟨i'', s2', hs2'', hinv2, _, _, _⟩ :=
      downLoop_indexInv ((swapped s 0 n).pq.length + 1) (swapped s 0 n) 0 n (by omega) (by omega)
        (indexInv_swapped s 0 n h0 hn hinv)
    have hs2e : heap.downLoop ((swapped s 0 n).pq.length + 1) (swapped s 0 n) 0 (n : Int)
        = .ok (i'', s2') := hs2''
    rw [hs2'] at hs2e
    cases hs2e
    obtain ⟨hnd, hidx⟩ := hinv2
    constructor
    · exact (List.take_sublist n s2.pq).nodup hnd
    · intro k hk
      have hk' : k < n := by
        have := hk
        simp only [List.length_take] at this
        omega
      show (setIndex s2.mem (s2.pq.getD n 0) (-1) ((s2.pq.take n).getD k 0)).index = (k : Int)
      have hg : (s2.pq.take n).getD k 0 = s2.pq.getD k 0 := by
        simp only [List.getD_eq_getElem?_getD, List.getElem?_take, if_pos hk']
      rw [hg]
      have hne1 : s2.pq.getD k 0 ≠ s2.pq.getD n 0 := fun e => by
        have := nodup_getD_inj s2.pq hnd k n (by omega) (by omega) e
        omega
      rw [setIndex_other _ _ _ _ hne1]
      exact hidx k (by omega)

theorem indexInv_cpq (mem : Ptr → Item) : IndexInv (cpq mem) := by
  constructor
  · exact List.nodup_nil
  · intro i hi
    simp [cpq] at hi

theorem run_indexInv (ops : List Op) : ∀ (s : Store) (seen : List Ptr), IndexInv s →
    (∀ p ∈ s.pq, p ∈ seen) → (seen ++ pushedItems ops).Nodup →
    ∃ s', run s ops = .ok s' ∧ IndexInv s' := by
  induction ops with
  | nil => intro s _ h _ _; exact ⟨s, rfl, h⟩
  | cons op ops ih =>
    intro s seen hinv hsub hnd
    cases op with
    | push p =>
      simp only [pushedItems] at hnd
      have hp : p ∉ seen := by
        intro hmem
        have := (List.nodup_append.mp hnd).2.2
        exact this hmem (List.mem_cons_self _ _)
      have hp' : p ∉ s.pq := fun h => hp (hsub p h)
      obtain ⟨s1, h1, hinv1, hperm1⟩ := cpqPush_indexInv s p hp' hinv
      obtain ⟨s2, h2, hinv2⟩ := ih s1 (seen ++ [p]) hinv1 (by
        intro q hq
        have : q ∈ p :: s.pq := hperm1.subset hq
        rcases List.mem_cons.mp this with rfl | hq'
        · simp
        · exact List.mem_append_left _ (hsub q hq')) (by
        simpa [List.append_assoc] using hnd)
      refine ⟨s2, ?_, hinv2⟩
      simp only [run, Op.apply, h1]; exact h2
    | pop =>
      simp only [pushedItems] at hnd
      by_cases hs : s.pq = []
      · obtain ⟨s2, h2, hinv2⟩ := ih s seen hinv hsub hnd
        refine ⟨s2, ?_, hinv2⟩
        simp only [run, Op.apply, cpqPop_nil s hs]; exact h2
      · obtain ⟨s1, h1, _, hsub1, hinv1⟩ := cpqPop_index s hs
        obtain ⟨s2, h2, hinv2⟩ := ih s1 seen (hinv1 hinv)
          (fun q hq => hsub q (hsub1 q hq)) hnd
        refine ⟨s2, ?_, hinv2⟩
        simp only [run, Op.apply, h1]; exact h2

/-- C19: after every sequence of calls on the initial empty queue whose
pushed entries are pairwise distinct, all calls have completed, the entry
stored at each position `i` below `Len` has `index` field `i`, and an entry
returned by a successful `Pop` from that state has `index` field `-1`. -/
theorem index_bookkeeping (mem : Ptr → Item) (ops : List Op)
    (hd : (pushedItems ops).Nodup) :
    ∃ s, run (cpq mem) ops = .ok s ∧
      (∀ i, i < s.pq.length → (s.mem (s.pq.getD i 0)).index = (i : Int)) ∧
      (s.pq = [] ∨
        ∃ (r : Ptr) (s' : Store), ConcurrentPriorityQueue.Pop s = .ok (some r, s') ∧
          (s'.mem r).index = -1 ∧
          ∀ i, i < s'.pq.length → (s'.mem (s'.pq.getD i 0)).index = (i : Int)) := by
  obtain ⟨s, h1, hinv⟩ := run_indexInv ops (cpq mem) [] (indexInv_cpq mem)
    (by intro p hp; simp [cpq] at hp) (by simpa using hd)
  refine ⟨s, h1, hinv.2, ?_⟩
  by_cases hs : s.pq = []
  · exact Or.inl hs
  · obtain ⟨s', h2, h3, _, h4⟩ := cpqPop_index s hs
    exact Or.inr ⟨_, s', h2, h3, (h4 hinv).2⟩

theorem index_bookkeeping_witness :
    (pushedItems [Op.push 0, Op.push 1, Op.push 2, Op.pop, Op.push 3, Op.push 4]).Nodup ∧
    ∃ s, run (cpq exampleMem) [Op.push 0, Op.push 1, Op.push 2, Op.pop, Op.push 3, Op.push 4]
        = .ok s ∧
      (∀ i, i < s.pq.length → (s.mem (s.pq.getD i 0)).index = (i : Int)) ∧
      (s.pq = [] ∨
        ∃ (r : Ptr) (s' : Store), ConcurrentPriorityQueue.Pop s = .ok (some r, s') ∧
          (s'.mem r).index = -1 ∧
          ∀ i, i < s'.pq.length → (s'.mem (s'.pq.getD i 0)).index = (i : Int)) :=
  ⟨by decide,
    index_bookkeeping exampleMem
      [Op.push 0, Op.push 1, Op.push 2, Op.pop, Op.push 3, Op.push 4] (by decide)⟩

theorem getD_take (l : List Ptr) (n k : Nat) (hk : k < n) :
    (l.take n).getD k 0 = l.getD k 0 := by
  simp only [List.getD_eq_getElem?_getD, List.getElem?_take, if_pos hk]

theorem getElem?_eq_some_getD (l : List Ptr) (k : Nat) (h : k < l.length) :
    l[k]? = some (l.getD k 0) := by
  simp [List.getD_eq_getElem?_getD, List.getElem?_eq_getElem h]

theorem swapL_take (l : List Ptr) (n i j : Nat) (hi : i < n) (hj : j < n)
    (hn : n ≤ l.length) : swapL (l.take n) i j = (swapL l i j).take n := by
  have hlt : (l.take n).length = n := by simp [List.length_take]; omega
  apply List.ext_getElem?
  intro k
  by_cases hk : k < n
  · rw [getElem?_eq_some_getD _ k (by rw [swapL_length, hlt]; exact hk),
      getElem?_eq_some_getD _ k (by simp [List.length_take, swapL_length]; omega)]
    rw [getD_take (swapL l i j) n k hk, swapL_getD (l.take n) i j k (by omega) (by omega),
      swapL_getD l i j k (by omega) (by omega), getD_take _ _ _ hi, getD_take _ _ _ hj]
    by_cases h1 : k = j
    · rw [if_pos h1, if_pos h1]
    · by_cases h2 : k = i
      · rw [if_neg h1, if_pos h2, if_neg h1, if_pos h2]
      · rw [if_neg h1, if_neg h2, if_neg h1, if_neg h2, getD_take _ _ _ hk]
  · rw [List.getElem?_eq_none (by rw [swapL_length, hlt]; omega),
      List.getElem?_eq_none (by simp [List.length_take, swapL_length]; omega)]

theorem take_set_last (l : List Ptr) (n : Nat) (x : Ptr) : (l.set n x).take n = l.take n := by
  apply List.ext_getElem?
  intro k
  simp only [List.getElem?_take]
  by_cases hk : k < n
  · rw [if_pos hk, if_pos hk, List.getElem?_set_ne (by omega)]
  · rw [if_neg hk, if_neg hk]

theorem specSiftDown_stop (s : Store) (i n f2 : Nat) (hn : n ≤ s.pq.length)
    (hstop : n ≤ 2 * i + 1) :
    specSiftDown (prio s.mem) false f2 (s.pq.take n) i = s.pq.take n := by
  have hlt' : (s.pq.take n).length = n := by simp [List.length_take]; omega
  cases f2 with
  | zero => rfl
  | succ f2 =>
    simp only [specSiftDown]
    rw [if_neg (by rw [hlt']; omega)]

theorem specSiftDown_step (s : Store) (i n f2 : Nat) (hn : n ≤ s.pq.length)
    (hlt : 2 * i + 1 < n) :
    specSiftDown (prio s.mem) false (f2 + 1) (s.pq.take n) i =
      if key s (pickChild s i n) > key s i then
        specSiftDown (prio s.mem) false f2 (swapL (s.pq.take n) i (pickChild s i n))
          (pickChild s i n)
      else s.pq.take n := by
  have hlt' : (s.pq.take n).length = n := by simp [List.length_take]; omega
  obtain ⟨hjn, _, _, _⟩ := pickChild_spec s i n hlt
  have hc : (if 2 * i + 2 < (s.pq.take n).length ∧
        (prio s.mem ((s.pq.take n).getD (2 * i + 2) 0) >
            prio s.mem ((s.pq.take n).getD (2 * i + 1) 0) ∨
          (false = true ∧ prio s.mem ((s.pq.take n).getD (2 * i + 2) 0) =
            prio s.mem ((s.pq.take n).getD (2 * i + 1) 0)))
      then 2 * i + 2 else 2 * i + 1) = pickChild s i n := by
    unfold pickChild
    rw [hlt']
    by_cases h2 : 2 * i + 2 < n
    · simp only [h2, true_and, Bool.false_eq_true, false_and, or_false, key,
        getD_take _ _ _ h2, getD_take _ _ _ hlt]
    · simp only [h2, false_and, if_false]
  simp only [specSiftDown]
  rw [if_pos (by rw [hlt']; exact hlt), hc, getD_take _ _ _ hjn,
    getD_take _ _ _ (by omega : i < n)]
  rfl

theorem downLoop_take (fuel : Nat) : ∀ (s : Store) (i n fuel2 : Nat), n ≤ s.pq.length →
    n - i < fuel → n - i ≤ fuel2 + 1 →
    ∃ i' s', heap.downLoop fuel s (i : Int) (n : Int) = .ok (i', s') ∧
      s'.pq.take n = specSiftDown (prio s.mem) false fuel2 (s.pq.take n) i := by
  induction fuel with
  | zero => intro s i n _ _ h; omega
  | succ fuel ih =>
    intro s i n fuel2 hn hf hf2
    by_cases hstop : n ≤ 2 * i + 1
    · exact ⟨_, s, downLoop_stop fuel s i n hstop,
        (specSiftDown_stop s i n fuel2 hn hstop).symm⟩
    · have hlt : 2 * i + 1 < n := by omega
      obtain ⟨hjn, hj0, hpj, _⟩ := pickChild_spec s i n hlt
      have hi : i < s.pq.length := by omega
      have hj : pickChild s i n < s.pq.length := by omega
      obtain ⟨f2, rfl⟩ : ∃ f2, fuel2 = f2 + 1 := ⟨fuel2 - 1, by omega⟩
      rw [downLoop_step fuel s i n hn hlt, specSiftDown_step s i n f2 hn hlt]
      by_cases hk : key s (pickChild s i n) > key s i
      · rw [if_pos hk, if_pos hk]
        obtain ⟨i', s', h1, h2⟩ :=
          ih (swapped s i (pickChild s i n)) (pickChild s i n) n f2
            (by simp only [swapped, swapL_length]; exact hn) (by omega) (by omega)
        refine ⟨i', s', h1, ?_⟩
        rw [h2, ← (swapped_sameContent s i (pickChild s i n)).prio_eq]
        simp only [swapped]
        rw [swapL_take _ _ _ _ (by omega) hjn hn]
      · rw [if_neg hk, if_neg hk]
        exact ⟨_, s, rfl, rfl⟩

theorem heapPop_of_downLoop (s : Store) (n : Nat) (i' : Int) (s2 : Store)
    (hlen : s.pq.length = n + 1)
    (hd : heap.downLoop ((swapped s 0 n).pq.length + 1) (swapped s 0 n) 0 (n : Int)
      = .ok (i', s2))
    (hl2 : s2.pq.length = n + 1) :
    heap.Pop s =
      .ok (s2.pq.getD n 0,
        { mem := setIndex s2.mem (s2.pq.getD n 0) (-1), pq := s2.pq.take n }) := by
  have e0 : PriorityQueue.Len s - 1 = (n : Int) := by
    simp only [PriorityQueue.Len]; omega
  have hswap : PriorityQueue.Swap s 0 (n : Int) = .ok (swapped s 0 n) :=
    Swap_natCast s 0 n (by omega) (by omega)
  simp only [heap.Pop, e0, hswap, heap.down, hd, bind, Except.bind, pure, Except.pure,
    pqPop_spec s2 n hl2]

/-- C16: for every non-empty storage, the extraction of the code (swap the
root with the last element, sift the new root down within the first `n - 1`
positions, then remove and return the last element) and the extraction the
specification describes (save the root, move the last element into the root
position, shrink by one, sift down, return the saved root; the left child on
a tie between the children) return the same entry and leave the same storage
sequence. -/
theorem extraction_refines_spec (s : Store) (hne : s.pq ≠ []) :
    ∃ (p : Ptr) (s' : Store), heap.Pop s = .ok (p, s') ∧
      ConcurrentPriorityQueue.Pop s = .ok (some p, s') ∧
      specExtractMax (prio s.mem) false s.pq = some (p, s'.pq) := by
  have hpos : 0 < s.pq.length := List.length_pos.mpr hne
  obtain ⟨n, hlen⟩ : ∃ n, s.pq.length = n + 1 := ⟨s.pq.length - 1, by omega⟩
  have h0 : 0 < s.pq.length := hpos
  have hn : n < s.pq.length := by omega
  have hl1 : (swapped s 0 n).pq.length = n + 1 := by
    simp only [swapped, swapL_length]; exact hlen
  obtain ⟨i', s2, hs2, htake⟩ :=
    downLoop_take ((swapped s 0 n).pq.length + 1) (swapped s 0 n) 0 n n (by omega) (by omega)
      (by omega)
  obtain ⟨i'', s2', hs2'', hperm, _, hframe, _⟩ :=
    downLoop_spec ((swapped s 0 n).pq.length + 1) (swapped s 0 n) 0 n (by omega) (by omega)
  rw [hs2] at hs2''
  cases hs2''
  have hs2' : heap.downLoop ((swapped s 0 n).pq.length + 1) (swapped s 0 n) 0 (n : Int)
      = .ok (i', s2) := hs2
  have hl2 : s2.pq.length = n + 1 := by rw [hperm.length_eq]; exact hl1
  have hlast : s2.pq.getD n 0 = s.pq.getD 0 0 := by
    rw [hframe n (le_refl _)]
    simp only [swapped]
    rw [swapL_getD _ _ _ _ h0 hn, if_pos rfl]
  have hpop := heapPop_of_downLoop s n i' s2 hlen hs2' hl2
  have hne0 : ¬ PriorityQueue.Len s = 0 := by
    simp only [PriorityQueue.Len]; omega
  refine ⟨s2.pq.getD n 0, _, hpop, ?_, ?_⟩
  · simp only [ConcurrentPriorityQueue.Pop, hne0, if_false, hpop, bind, Except.bind, pure,
      Except.pure]
  · show specExtractMax (prio s.mem) false s.pq = some (s2.pq.getD n 0, s2.pq.take n)
    rw [htake, hlast, (swapped_sameContent s 0 n).prio_eq]
    have hmoved : (swapped s 0 n).pq.take n = (s.pq.set 0 (s.pq.getD n 0)).take n := by
      simp only [swapped, swapL]
      exact take_set_last _ _ _
    rw [hmoved]
    cases hl : s.pq with
    | nil => exact absurd hl hne
    | cons root rest =>
      have hlen' : (root :: rest).length - 1 = n := by
        rw [← hl, hlen]; rfl
      have hmlen : (((root :: rest).set 0 ((root :: rest).getD n 0)).take n).length = n := by
        have : n ≤ ((root :: rest).set 0 ((root :: rest).getD n 0)).length := by
          rw [List.length_set, ← hl, hlen]; omega
        simp only [List.length_take]
        omega
      simp only [specExtractMax, hlen', hmlen]
      rfl

theorem extraction_refines_spec_witness :
    exampleQueue.pq ≠ [] ∧
    ∃ (p : Ptr) (s' : Store), heap.Pop exampleQueue = .ok (p, s') ∧
      ConcurrentPriorityQueue.Pop exampleQueue = .ok (some p, s') ∧
      specExtractMax (prio exampleQueue.mem) false exampleQueue.pq = some (p, s'.pq) :=
  ⟨by decide, extraction_refines_spec exampleQueue (by decide)⟩

set_option maxRecDepth 100000 in
theorem char_ofNat_byte : ∀ x : Byte, (Char.ofNat x.val).toNat = x.val := by
  decide

theorem bytesToString_injective : Function.Injective bytesToString := by
  intro b1 b2 h
  have h' : b1.map (fun x : Byte => Char.ofNat x.val) = b2.map (fun x : Byte => Char.ofNat x.val) :=
    congrArg String.data h
  refine List.map_injective_iff.mpr ?_ h'
  intro x y hxy
  have := congrArg Char.toNat hxy
  simp only [char_ofNat_byte] at this
  exact Fin.ext this

theorem bytesToString_length (b : List Byte) : (bytesToString b).length = b.length := by
  simp [bytesToString, String.length]

theorem bytesToString_codes (b : List Byte) :
    (bytesToString b).data.map Char.toNat = b.map (fun x => x.val) := by
  simp only [bytesToString, List.map_map]
  apply List.map_congr_left
  intro x _
  exact char_ofNat_byte x

/-- C11: for every request with method POST whose body is read successfully
as the bytes `b`, `handlePost` completes, writes the plain acknowledgement,
and pushes exactly one entry (the new item at address `a`) whose value holds
exactly the bytes of `b` (its character codes are the bytes of `b`, in order)
and whose priority is the byte length of `b`; the queue length grows by
exactly 1 and no other item changes value or priority. -/
theorem handlePost_pushes (s : Store) (a : Ptr) (r : Request) (b : List Byte)
    (hm : r.Method = "POST") (hb : r.Body = .ok b) :
    ∃ s', handlePost s a r =
        .ok ({ status := 200, body := "Received POST request and added to queue" }, s') ∧
      s'.pq.Perm (a :: s.pq) ∧
      (s'.mem a).value.data.map Char.toNat = b.map (fun x => x.val) ∧
      (s'.mem a).value.length = b.length ∧
      (s'.mem a).value = bytesToString b ∧ (s'.mem a).priority = (b.length : Int) ∧
      PriorityQueue.Len s' = PriorityQueue.Len s + 1 ∧
      ∀ q, q ≠ a → (s'.mem q).value = (s.mem q).value ∧
        (s'.mem q).priority = (s.mem q).priority := by
  obtain ⟨s', h1, hp, hc, _⟩ := cpqPush_spec
    { mem := newItem s.mem a (bytesToString b) (b.length : Int), pq := s.pq } a
  have hv : (s'.mem a).value = bytesToString b := by
    rw [(hc a).1]; simp [newItem]
  refine ⟨s', ?_, hp, ?_, ?_, hv, ?_, ?_, ?_⟩
  · simp only [handlePost, hm, http.MethodPost, if_true, hb, h1, http.StatusOK]
  · rw [hv]; exact bytesToString_codes b
  · rw [hv]; exact bytesToString_length b
  · rw [(hc a).2]; simp [newItem]
  · have := hp.length_eq
    simp only [List.length_cons] at this
    simp only [PriorityQueue.Len, this]
    push_cast
    rfl
  · intro q hq
    rw [(hc q).1, (hc q).2]
    simp [newItem, hq]

theorem handlePost_pushes_witness :
    ∃ s', handlePost exampleQueue 7 { Method := "POST", Body := .ok [104, 105] } =
        .ok ({ status := 200, body := "Received POST request and added to queue" }, s') ∧
      s'.pq.Perm (7 :: exampleQueue.pq) ∧
      (s'.mem 7).value = "hi" ∧ (s'.mem 7).value.data.map Char.toNat = [104, 105] ∧
      (s'.mem 7).priority = 2 ∧
      PriorityQueue.Len s' = PriorityQueue.Len exampleQueue + 1 ∧
      ∀ q, q ≠ 7 → (s'.mem q).value = (exampleQueue.mem q).value ∧
        (s'.mem q).priority = (exampleQueue.mem q).priority := by
  obtain ⟨s', h1, h2, h3, _, h5, h6, h7, h8⟩ :=
    handlePost_pushes exampleQueue 7 { Method := "POST", Body := .ok [104, 105] } [104, 105]
      rfl rfl
  exact ⟨s', h1, h2, h5.trans (by decide), h3, h6, h7, h8⟩

/-- C12: for every request whose method is not POST and every queue state,
`handlePost` replies with the status 405 (method not allowed) and leaves the
state of the queue unchanged. -/
theorem handlePost_method_not_allowed (s : Store) (a : Ptr) (r : Request)
    (hm : r.Method ≠ "POST") :
    handlePost s a r = .ok ({ status := 405, body := "Invalid request method\n" }, s) := by
  simp only [handlePost, http.MethodPost, hm, if_false, http.Error,
    http.StatusMethodNotAllowed]
  rfl

theorem handlePost_method_not_allowed_witness :
    "GET" ≠ "POST" ∧
    handlePost exampleQueue 7 { Method := "GET", Body := .ok [104, 105] } =
      .ok ({ status := 405, body := "Invalid request method\n" }, exampleQueue) :=
  ⟨by decide,
    handlePost_method_not_allowed exampleQueue 7 { Method := "GET", Body := .ok [104, 105] }
      (by decide)⟩

/-- C13: for every POST request whose body read fails and every queue
state, `handlePost` replies with the status 500 (internal server error) and
pushes nothing: the state of the queue is unchanged. -/
theorem handlePost_read_failure (s : Store) (a : Ptr) (r : Request) (e : String)
    (hm : r.Method = "POST") (hb : r.Body = .error e) :
    handlePost s a r = .ok ({ status := 500, body := "Error reading request body\n" }, s) := by
  simp only [handlePost, hm, http.MethodPost, if_true, hb, http.Error,
    http.StatusInternalServerError]
  rfl

theorem handlePost_read_failure_witness :
    handlePost exampleQueue 7 { Method := "POST", Body := .error "unexpected EOF" } =
      .ok ({ status := 500, body := "Error reading request body\n" }, exampleQueue) :=
  handlePost_read_failure exampleQueue 7 { Method := "POST", Body := .error "unexpected EOF" }
    "unexpected EOF" rfl rfl

/-- C15: for every byte sequence on which the configured decoder reports a
failure, `HandleTx` does not propagate it: it prints the error, prints the
nil transaction, and returns the nil (zero-value) transaction. -/
theorem handleTx_decode_failure {Tx : Type} (t : TxHandler Tx) (txBytes : List Byte)
    (e : String) (h : t.txConfig txBytes = .error e) :
    t.HandleTx txBytes = (none, [Printed.err e, Printed.tx none]) := by
  simp only [TxHandler.HandleTx, h, goResult]
  rfl

theorem handleTx_decode_failure_witness :
    TxHandler.HandleTx
        ({ txConfig := fun b => if b = [] then .error "tx parse error" else .ok b.length }
          : TxHandler Nat) [] =
      (none, [Printed.err "tx parse error", Printed.tx none]) :=
  handleTx_decode_failure
    ({ txConfig := fun b => if b = [] then .error "tx parse error" else .ok b.length }
      : TxHandler Nat) [] "tx parse error" rfl

/-- The tie rule between equal children decides the resulting sequence of
the specification's extraction: on the heap 5, 3, 3, 1 the left rule leaves
the entries 1, 3, 2 and the right rule leaves 2, 1, 3, with the same returned
root. -/
theorem specExtractMax_tie_rule :
    specExtractMax (prio tieChildrenMem) false [0, 1, 2, 3] = some (0, [1, 3, 2]) ∧
      specExtractMax (prio tieChildrenMem) true [0, 1, 2, 3] = some (0, [2, 1, 3]) := by
  decide

end TxQueue
